import Mathlib

/-!
Verification of the local-proxy blocklist store/matcher and the request-log
analytics pipeline, as a shallow embedding of the Go sources
(`db_service/service.go`, `proxy_service/service.go`).

Strings are modelled as `List Char` (Go strings viewed as rune sequences), so
`strings.ToLower`, `strings.TrimSpace` and `strings.ReplaceAll` become list
functions.  The Go code delegates glob and regex matching to the standard
`regexp` package; it is embedded here as an executable regular-expression
engine (`compile`, `endsOf`, `matchString`) covering the syntax the blocklist
dialects exercise: literal characters, escapes, `.`, the repetition operators
`* + ?`, the anchors `^ $`, and alternation `|`.  Constructs outside this
subset (groups, character classes, etc.) make `compile` fail, mirroring only a
part of Go's parser; every theorem about regex behaviour is conditioned on the
pattern compiling in this engine.  SQLite tables are modelled as lists of rows;
`INSERT OR IGNORE` on the primary key becomes insert-if-absent and `DELETE
WHERE domain = ?` becomes a filter.
-/

namespace LocalProxy

/-- Embedding of `strings.ToLower`, restricted to the ASCII case mapping of `Char.toLower`. -/
def toLowerL (s : List Char) : List Char := s.map Char.toLower

/-- Embedding of `strings.TrimSpace`: drop leading and trailing whitespace. -/
def trimL (s : List Char) : List Char :=
  ((s.dropWhile Char.isWhitespace).reverse.dropWhile Char.isWhitespace).reverse

/-- View a Lean string literal as the character list the embedding works on. -/
def strL (s : String) : List Char := s.data

/-- Embedding of `strings.ReplaceAll` for a single-character pattern `old`, replaced by
`rep`; replacements are not rescanned, matching Go's left-to-right pass. -/
def replaceChar (old : Char) (rep : List Char) : List Char → List Char
  | [] => []
  | c :: rest =>
    if c = old then rep ++ replaceChar old rep rest
    else c :: replaceChar old rep rest

/-! ### Regular-expression engine (embedding of the used part of Go `regexp`) -/

/-- Abstract syntax of the supported regular expressions.  `anyChar` is `.`
(any character except newline, Go's default), `beginText`/`endText` are the
`^`/`$` anchors in their default (non-multiline) meaning. -/
inductive Regex where
  | emptyStr
  | char (c : Char)
  | anyChar
  | beginText
  | endText
  | concat (r1 r2 : Regex)
  | alt (r1 r2 : Regex)
  | star (r : Regex)
deriving DecidableEq, Repr

/-- The repetition operators. -/
def isRepOp (c : Char) : Bool := c = '*' || c = '+' || c = '?'

/-- Zero-width assertion nodes. -/
def isAssertNode : Regex → Bool
  | .beginText => true
  | .endText => true
  | _ => false

/-- Characters accepted after a backslash: Go treats a backslash followed by a
non-alphanumeric ASCII character as that literal character. -/
def escapable (d : Char) : Bool := d.toNat < 128 && !d.isAlphanum

/-- Parse one atom.  Groups, character classes and braces are outside the
supported subset and fail conservatively. -/
def parseAtom : List Char → Option (Regex × List Char)
  | [] => none
  | c :: rest =>
    if c = '\\' then
      match rest with
      | [] => none
      | d :: rest2 => if escapable d then some (.char d, rest2) else none
    else if c = '.' then some (.anyChar, rest)
    else if c = '^' then some (.beginText, rest)
    else if c = '$' then some (.endText, rest)
    else if isRepOp c then none
    else if c = '|' || c = '(' || c = ')' || c = '[' || c = ']'
        || c = '\x7b' || c = '\x7d' then none
    else some (.char c, rest)

/-- Apply a repetition operator to an atom. -/
def applyRep (r : Regex) (c : Char) : Option Regex :=
  if c = '*' then some (.star r)
  else if c = '+' then some (.concat r (.star r))
  else if c = '?' then some (.alt .emptyStr r)
  else none

/-- Parse one atom together with an optional repetition operator.  Repetition
of an anchor and stacked repetition operators are outside the supported
subset. -/
def parseItem (cs : List Char) : Option (Regex × List Char) :=
  match parseAtom cs with
  | none => none
  | some (r, rest) =>
    match rest with
    | [] => some (r, [])
    | c :: rest2 =>
      if isRepOp c then
        if isAssertNode r then none
        else
          match applyRep r c with
          | none => none
          | some r2 =>
            match rest2 with
            | [] => some (r2, [])
            | d :: _ => if isRepOp d then none else some (r2, rest2)
      else some (r, rest)

theorem parseAtom_length {cs rest : List Char} {r : Regex}
    (h : parseAtom cs = some (r, rest)) : rest.length < cs.length := by
  match cs with
  | [] => simp [parseAtom] at h
  | c :: cs' =>
    simp only [parseAtom] at h
    repeat' split at h
    all_goals simp_all
    all_goals omega

theorem parseItem_length {cs rest : List Char} {r : Regex}
    (h : parseItem cs = some (r, rest)) : rest.length < cs.length := by
  unfold parseItem at h
  cases ha : parseAtom cs with
  | none => rw [ha] at h; simp at h
  | some pr =>
    obtain ⟨r0, rest0⟩ := pr
    rw [ha] at h
    have hl0 := parseAtom_length ha
    simp only at h
    repeat' split at h
    all_goals simp_all
    all_goals (obtain ⟨h1, h2⟩ := h; subst h2)
    all_goals (try simp only [List.length_cons] at hl0 ⊢)
    all_goals omega

/-- Fuel-driven worker for `parseSeqList`; `parseItem` always consumes at
least one character, so fuel equal to the input length suffices. -/
def parseSeqAux : Nat → List Char → Option (List Regex)
  | _, [] => some []
  | 0, _ :: _ => none
  | fuel + 1, c :: cs =>
    match parseItem (c :: cs) with
    | none => none
    | some (r, rest) =>
      match parseSeqAux fuel rest with
      | none => none
      | some rs => some (r :: rs)

/-- Parse a `|`-free pattern fragment as a sequence of items; the whole input
must be consumed. -/
def parseSeqList (cs : List Char) : Option (List Regex) := parseSeqAux cs.length cs

theorem parseSeqAux_fuel_irrel :
    ∀ {fuel1 fuel2 : Nat} {cs : List Char}, cs.length ≤ fuel1 → cs.length ≤ fuel2 →
      parseSeqAux fuel1 cs = parseSeqAux fuel2 cs := by
  intro fuel1
  induction fuel1 with
  | zero =>
    intro fuel2 cs h1 h2
    match cs with
    | [] => cases fuel2 <;> rfl
    | c :: cs' => simp at h1
  | succ fuel1 ih =>
    intro fuel2 cs h1 h2
    match cs with
    | [] => cases fuel2 <;> rfl
    | c :: cs' =>
      match fuel2 with
      | 0 => simp at h2
      | fuel2 + 1 =>
        simp only [parseSeqAux]
        cases hpi : parseItem (c :: cs') with
        | none => rfl
        | some pr =>
          obtain ⟨r, rest⟩ := pr
          have hlen := parseItem_length hpi
          simp only [List.length_cons] at h1 h2 hlen
          dsimp only
          rw [@ih fuel2 rest (by omega) (by omega)]

theorem parseSeqList_cons_none {c : Char} {cs : List Char}
    (h : parseItem (c :: cs) = none) : parseSeqList (c :: cs) = none := by
  unfold parseSeqList
  simp only [List.length_cons, parseSeqAux, h]

theorem parseSeqList_cons_some {c : Char} {cs rest : List Char} {r : Regex}
    (h : parseItem (c :: cs) = some (r, rest)) :
    parseSeqList (c :: cs) = (parseSeqList rest).map (fun rs => r :: rs) := by
  unfold parseSeqList
  simp only [List.length_cons, parseSeqAux, h]
  have hlen := parseItem_length h
  simp only [List.length_cons] at hlen
  rw [@parseSeqAux_fuel_irrel cs.length rest.length rest (by omega) (by omega)]
  cases parseSeqAux rest.length rest <;> rfl

/-- Split a pattern at every `|` (alternation has lowest precedence and the
supported subset has no groups, so every `|` is top-level). -/
def splitBar : List Char → List (List Char)
  | [] => [[]]
  | c :: rest =>
    if c = '|' then [] :: splitBar rest
    else
      match splitBar rest with
      | [] => [[c]]
      | p :: ps => (c :: p) :: ps

/-- Right-nested concatenation of a parsed sequence. -/
def foldSeq : List Regex → Regex
  | [] => .emptyStr
  | [r] => r
  | r :: s :: rs => .concat r (foldSeq (s :: rs))

/-- Right-nested alternation of the parsed branches. -/
def foldAlt : List Regex → Regex
  | [] => .emptyStr
  | [r] => r
  | r :: s :: rs => .alt r (foldAlt (s :: rs))

/-- Parse every alternation branch. -/
def compileParts : List (List Char) → Option (List Regex)
  | [] => some []
  | p :: ps =>
    match parseSeqList p with
    | none => none
    | some rs =>
      match compileParts ps with
      | none => none
      | some qs => some (foldSeq rs :: qs)

/-- Embedding of `regexp.Compile` on the supported subset. -/
def compile (cs : List Char) : Option Regex :=
  match compileParts (splitBar cs) with
  | none => none
  | some rs => some (foldAlt rs)

/-- One strictly-advancing closure step set for `star`: all positions reachable
from `i` by iterating `step`, where every iteration must consume input.
Iterations that consume nothing never change the reachable set, so this is the
standard Kleene-star position semantics. -/
def starEnds (step : Nat → List Nat) : Nat → Nat → List Nat
  | 0, i => [i]
  | fuel + 1, i =>
    i :: (((step i).filter (fun k => i < k)).map (fun k => starEnds step fuel k)).flatten

/-- Positional matcher: `endsOf s r i` lists the positions `j` such that `r`
matches the span of `s` from `i` to `j` (assertions consult the full text). -/
def endsOf (s : List Char) : Regex → Nat → List Nat
  | .emptyStr, i => [i]
  | .char c, i =>
    match s[i]? with
    | some d => if d = c then [i + 1] else []
    | none => []
  | .anyChar, i =>
    match s[i]? with
    | some d => if d = '\n' then [] else [i + 1]
    | none => []
  | .beginText, i => if i = 0 then [i] else []
  | .endText, i => if i = s.length then [i] else []
  | .concat r1 r2, i => ((endsOf s r1 i).map (fun k => endsOf s r2 k)).flatten
  | .alt r1 r2, i => endsOf s r1 i ++ endsOf s r2 i
  | .star r, i => starEnds (endsOf s r) (s.length + 1) i

/-- Unanchored search: does `r` match starting at some position of `s`?  This
is the semantics of Go's `regexp.MatchString`. -/
def searchAnywhere (r : Regex) (s : List Char) : Bool :=
  (List.range (s.length + 1)).any (fun i => !(endsOf s r i).isEmpty)

/-- Embedding of `regexp.MatchString pat s` with the error dropped, as at every call site:
a pattern outside the supported subset yields `false`. -/
def matchString (pat s : List Char) : Bool :=
  match compile pat with
  | none => false
  | some r => searchAnywhere r s

/-- The glob-to-regex translation of `matchGlob`: `*` becomes `.*` and `?`
becomes `.`, with no escaping of any other character. -/
def globTranslate (p : List Char) : List Char :=
  replaceChar '?' ['.'] (replaceChar '*' ['.', '*'] p)

/-- Embedding of `matchGlob` from `db_service/service.go`: translate the glob, wrap it in
`^...$`, and run the regex search. -/
def matchGlob (text pat : List Char) : Bool :=
  matchString ('^' :: (globTranslate pat ++ ['$'])) text

/-- Embedding of `matchRegex` from `db_service/service.go`: the stored pattern verbatim,
unanchored. -/
def matchRegex (text pat : List Char) : Bool := matchString pat text

/-! ### Blocklist store (`db_service/service.go`) -/

/-- One row of the `blocked_domains` table. -/
structure BlockRule where
  domain : List Char
  filterType : String
  createdAt : Nat
deriving DecidableEq, Repr

/-- The per-row test applied by the scan loop of `IsDomainBlocked` to the
already-normalized candidate. -/
def matchesRule (domain : List Char) (r : BlockRule) : Bool :=
  if r.filterType = "exact" then decide (domain = toLowerL r.domain)
  else if r.filterType = "glob" then matchGlob domain (toLowerL r.domain)
  else if r.filterType = "regex" then matchRegex domain r.domain
  else false

/-- Embedding of `IsDomainBlocked`: normalize, reject empty, then scan all rows and succeed
on the first match. -/
def IsDomainBlocked (tbl : List BlockRule) (domain : List Char) : Bool :=
  let d := toLowerL (trimL domain)
  if d = [] then false
  else tbl.any (fun r => matchesRule d r)

/-- The filter types admitted by `BlockDomainWithType`. -/
def isValidType (ft : String) : Bool := ft = "exact" || ft = "glob" || ft = "regex"

/-- The filter type actually stored: an unrecognized type is coerced to
`exact`. -/
def coercedType (ft : String) : String := if isValidType ft then ft else ("exact")

/-- The pattern text actually stored (and used as the `INSERT OR IGNORE` /
`DELETE` key): trimmed, and lowercased for the exact and glob dialects but
kept verbatim for regex. -/
def storedKey (ft : String) (domain : List Char) : List Char :=
  if coercedType ft = "exact" || coercedType ft = "glob" then toLowerL (trimL domain)
  else trimL domain

/-- Embedding of `BlockDomainWithType`: trim, reject empty, coerce an unknown filter type to
`exact`, lowercase for exact/glob, validate compilation for regex, then
`INSERT OR IGNORE` keyed on the pattern.  Returns the boolean result and the
resulting table. -/
def BlockDomainWithType (tbl : List BlockRule) (now : Nat) (domain : List Char)
    (filterType : String) : Bool × List BlockRule :=
  if trimL domain = [] then (false, tbl)
  else
    let ft := coercedType filterType
    let d := storedKey filterType domain
    if ft = "regex" && (compile d).isNone then (false, tbl)
    else if tbl.any (fun r => decide (r.domain = d)) then (true, tbl)
    else (true, tbl ++ [⟨d, ft, now⟩])

/-- Embedding of `UnblockDomain`: normalize, reject empty, `DELETE WHERE domain = ?`. -/
def UnblockDomain (tbl : List BlockRule) (domain : List Char) : Bool × List BlockRule :=
  let d := toLowerL (trimL domain)
  if d = [] then (false, tbl)
  else (true, tbl.filter (fun r => !decide (r.domain = d)))

/-! ### Log queue and analytics (`proxy_service/service.go`) -/

/-- The payload handed to `LogRequest`. -/
structure LogReq where
  host : String
  method : String
  path : String
  port : Int
  approved : Bool
  duration : Int
deriving DecidableEq, Repr

/-- Capacity of the log channel created in `ServiceStartup`
(`make(chan LogRequest, 1000)`). -/
def logChannelCap : Nat := 1000

/-- The enqueue step of `LogRequest`: the `select` with a `default` branch
enqueues when the buffered channel has space and otherwise drops the event,
logging a warning.  The second component is `true` when the event was
enqueued, `false` when it was dropped. -/
def logRequestEnqueue (q : List LogReq) (r : LogReq) : List LogReq × Bool :=
  if q.length < logChannelCap then (q ++ [r], true) else (q, false)

/-- One row of the `requests` table (also the shape of a `RequestDetail`
entry returned by `GetDashboardData`).  The REAL `duration` column is carried
as an integer; no claim depends on its value. -/
structure RequestRow where
  timestamp : Int
  host : String
  method : String
  path : String
  port : Int
  decision : String
  duration : Int
deriving DecidableEq, Repr

/-- One point of the connection chart. -/
structure ConnectionData where
  timestamp : Int
  count : Int
  approved : Int
  rejected : Int
deriving DecidableEq, Repr

/-- The aggregate returned by `GetDashboardData`. -/
structure DashboardData where
  timeRange : String
  totalRequests : Int
  approvedCount : Int
  rejectedCount : Int
  connections : List ConnectionData
  requests : List RequestRow
deriving DecidableEq, Repr

/-- Embedding of `getIntervalMinutes` from `proxy_service/service.go`. -/
def getIntervalMinutes (timeRange : String) : Int :=
  if timeRange = "1h" then 5
  else if timeRange = "6h" then 30
  else if timeRange = "24h" then 60
  else if timeRange = "7d" then 360
  else if timeRange = "30d" then 1440
  else 60

/-- Window length in milliseconds implied by the `switch` on `timeRange` in
`GetDashboardData` (`now.Add(-window)` followed by `UnixMilli`). -/
def windowMillis (timeRange : String) : Int :=
  if timeRange = "1h" then 3600000
  else if timeRange = "6h" then 21600000
  else if timeRange = "24h" then 86400000
  else if timeRange = "7d" then 604800000
  else if timeRange = "30d" then 2592000000
  else 86400000

/-- The bucket-key computation of `GetDashboardData`:
`(timestamp / (intervalMinutes*60*1000)) * (intervalMinutes*60*1000)` with
Go's truncating `int64` division (`Int.tdiv`). -/
def bucketKey (intervalMinutes timestamp : Int) : Int :=
  Int.tdiv timestamp (intervalMinutes * 60 * 1000) * (intervalMinutes * 60 * 1000)

/-- Update one `ConnectionData` in place: `Count++` and the matching decision
counter. -/
def bumpGroup (g : ConnectionData) (ap : Bool) : ConnectionData :=
  { g with
      count := g.count + 1
      approved := if ap then g.approved + 1 else g.approved
      rejected := if ap then g.rejected else g.rejected + 1 }

/-- The `timeGroups` map, modelled as an association list keyed by the bucket
timestamp: bump the entry for `key`, creating it (zero-initialised, as in the
Go code) if absent. -/
def updateGroups (key : Int) (ap : Bool) : List ConnectionData → List ConnectionData
  | [] => [bumpGroup ⟨key, 0, 0, 0⟩ ap]
  | g :: gs =>
    if g.timestamp = key then bumpGroup g ap :: gs
    else g :: updateGroups key ap gs

/-- Accumulator of the row-scan loop of `GetDashboardData`. -/
structure AggState where
  groups : List ConnectionData
  total : Int
  approvedCount : Int
  rejectedCount : Int
  requests : List RequestRow
deriving Repr

/-- One iteration of the row-scan loop. -/
def aggStep (intervalMinutes : Int) (st : AggState) (row : RequestRow) : AggState :=
  let key := bucketKey intervalMinutes row.timestamp
  let ap := decide (row.decision = "approved")
  { groups := updateGroups key ap st.groups
    total := st.total + 1
    approvedCount := if ap then st.approvedCount + 1 else st.approvedCount
    rejectedCount := if ap then st.rejectedCount else st.rejectedCount + 1
    requests := st.requests ++ [row] }

/-- Inner pass of the double-loop swap sort in `GetDashboardData`: scanning
positions `i+1..n-1` with current element `x` at position `i`, swapping
whenever `a[i].Timestamp > a[j].Timestamp`.  Returns the element left at
position `i` and the rearranged tail. -/
def selectPass (x : ConnectionData) : List ConnectionData → ConnectionData × List ConnectionData
  | [] => (x, [])
  | y :: ys =>
    if x.timestamp > y.timestamp then ((selectPass y ys).1, x :: (selectPass y ys).2)
    else ((selectPass x ys).1, y :: (selectPass x ys).2)

theorem selectPass_length (x : ConnectionData) (l : List ConnectionData) :
    (selectPass x l).2.length = l.length := by
  induction l generalizing x with
  | nil => simp [selectPass]
  | cons y ys ih =>
    simp only [selectPass]
    split <;> simp [ih]

/-- Fuel-driven worker for `selSort`; `selectPass` preserves the length of the
tail, so fuel equal to the list length suffices. -/
def selSortAux : Nat → List ConnectionData → List ConnectionData
  | _, [] => []
  | 0, l => l
  | fuel + 1, x :: xs => (selectPass x xs).1 :: selSortAux fuel (selectPass x xs).2

/-- The outer loop of the swap sort: fix the minimum at each position in
turn. -/
def selSort (l : List ConnectionData) : List ConnectionData := selSortAux l.length l

theorem selSort_nil : selSort [] = [] := rfl

theorem selSort_cons (x : ConnectionData) (xs : List ConnectionData) :
    selSort (x :: xs) = (selectPass x xs).1 :: selSort (selectPass x xs).2 := by
  unfold selSort
  simp only [List.length_cons, selSortAux, selectPass_length]

/-- The SQL fetch of `GetDashboardData`: all rows whose timestamp lies in the
inclusive window.  The `ORDER BY timestamp DESC` of the query only fixes the
sequence order handed to the order-insensitive aggregation loop (the chart is
re-sorted afterwards and no claim constrains the detail-list order), so the
rows are kept in table order. -/
def fetchRows (tbl : List RequestRow) (startT endT : Int) : List RequestRow :=
  tbl.filter (fun r => decide (startT ≤ r.timestamp) && decide (r.timestamp ≤ endT))

/-- Embedding of `GetDashboardData tbl now timeRange`: window bounds, fetch, per-row
aggregation, and the final sort of the chart points. -/
def GetDashboardData (tbl : List RequestRow) (now : Int) (timeRange : String) : DashboardData :=
  let startT := now - windowMillis timeRange
  let fetched := fetchRows tbl startT now
  let im := getIntervalMinutes timeRange
  let st := fetched.foldl (aggStep im) ⟨[], 0, 0, 0, []⟩
  { timeRange := timeRange
    totalRequests := st.total
    approvedCount := st.approvedCount
    rejectedCount := st.rejectedCount
    connections := selSort st.groups
    requests := st.requests }

/-! ### Declarative regex semantics -/

/-- Positional semantics: `Sem s r i j` holds when regex `r` matches the span of `s` from position `i` to
position `j`; the anchors consult the position within the full text. -/
inductive Sem (s : List Char) : Regex → Nat → Nat → Prop where
  | emptyStr (i : Nat) : Sem s .emptyStr i i
  | char (c : Char) (i : Nat) (h : s[i]? = some c) : Sem s (.char c) i (i + 1)
  | anyChar (c : Char) (i : Nat) (h : s[i]? = some c) (hnl : c ≠ '\n') :
      Sem s .anyChar i (i + 1)
  | beginText : Sem s .beginText 0 0
  | endText : Sem s .endText s.length s.length
  | concat {r1 r2 : Regex} {i k j : Nat} :
      Sem s r1 i k → Sem s r2 k j → Sem s (.concat r1 r2) i j
  | altL {r1 r2 : Regex} {i j : Nat} : Sem s r1 i j → Sem s (.alt r1 r2) i j
  | altR {r1 r2 : Regex} {i j : Nat} : Sem s r2 i j → Sem s (.alt r1 r2) i j
  | starNil {r : Regex} (i : Nat) : Sem s (.star r) i i
  | starCons {r : Regex} {i k j : Nat} :
      Sem s r i k → Sem s (.star r) k j → Sem s (.star r) i j

/-- Whether a regex contains no anchor node. -/
def assertFree : Regex → Bool
  | .beginText => false
  | .endText => false
  | .concat r1 r2 => assertFree r1 && assertFree r2
  | .alt r1 r2 => assertFree r1 && assertFree r2
  | .star r => assertFree r
  | _ => true

/-- The language of an anchor-free regex: plain word membership. -/
inductive RLang : Regex → List Char → Prop where
  | emptyStr : RLang .emptyStr []
  | char (c : Char) : RLang (.char c) [c]
  | anyChar (c : Char) (hnl : c ≠ '\n') : RLang .anyChar [c]
  | concat {r1 r2 : Regex} {u v : List Char} :
      RLang r1 u → RLang r2 v → RLang (.concat r1 r2) (u ++ v)
  | altL {r1 r2 : Regex} {u : List Char} : RLang r1 u → RLang (.alt r1 r2) u
  | altR {r1 r2 : Regex} {u : List Char} : RLang r2 u → RLang (.alt r1 r2) u
  | starNil {r : Regex} : RLang (.star r) []
  | starCons {r : Regex} {u v : List Char} :
      RLang r u → RLang (.star r) v → RLang (.star r) (u ++ v)

/-! ### Spec-side definitions (stated from the specification's words, for
comparison with the code-derived definitions) -/

/-- Full anchored match of a pattern string against the whole candidate, the
specification's reading of the Glob dialect: the candidate, from its start to
its end, is matched by the compiled pattern. -/
def specFullPatternMatch (pat c : List Char) : Prop :=
  ∃ re, compile pat = some re ∧ Sem c re 0 c.length

/-- Contains-semantics of the Regex dialect per the specification: the pattern
is found anywhere within the candidate. -/
def specContainsMatch (pat c : List Char) : Prop :=
  ∃ u v w, c = u ++ v ++ w ∧ ∃ re, compile pat = some re ∧ RLang re v

/-- The specification's bucket-width mapping (1h → 5 min, 6h → 30 min,
24h → 60 min, 7d → 6 hours, 30d → 1 day, unrecognized → 60 min), in
milliseconds. -/
def specBucketWidthMillis (rangeKey : String) : Int :=
  if rangeKey = "1h" then 5 * 60 * 1000
  else if rangeKey = "6h" then 30 * 60 * 1000
  else if rangeKey = "24h" then 60 * 60 * 1000
  else if rangeKey = "7d" then 6 * 60 * 60 * 1000
  else if rangeKey = "30d" then 24 * 60 * 60 * 1000
  else 60 * 60 * 1000

/-- The specification's bucket key: floor of the timestamp over the bucket
width, times the bucket width, aligned to the epoch. -/
def specBucketKey (rangeKey : String) (timestamp : Int) : Int :=
  Int.fdiv timestamp (specBucketWidthMillis rangeKey) * specBucketWidthMillis rangeKey

/-- One strictly-advancing iteration step of a star. -/
def StepRel (step : Nat → List Nat) (a b : Nat) : Prop := b ∈ step a ∧ a < b

/-! ### Correctness of the positional matcher -/

theorem Sem.le {s : List Char} {r : Regex} {i j : Nat} (h : Sem s r i j) : i ≤ j := by
  induction h <;> omega

theorem getElem?_some_lt {s : List Char} {i : Nat} {c : Char} (h : s[i]? = some c) :
    i < s.length := by
  obtain ⟨hl, -⟩ := List.getElem?_eq_some_iff.mp h
  exact hl

theorem Sem.le_length {s : List Char} {r : Regex} {i j : Nat}
    (h : Sem s r i j) (hi : i ≤ s.length) : j ≤ s.length := by
  induction h with
  | emptyStr => exact hi
  | char c i h =>
    have := getElem?_some_lt h
    omega
  | anyChar c i h hnl =>
    have := getElem?_some_lt h
    omega
  | beginText => exact Nat.zero_le _
  | endText => exact le_rfl
  | concat h1 h2 ih1 ih2 => exact ih2 (ih1 hi)
  | altL h ih => exact ih hi
  | altR h ih => exact ih hi
  | starNil => exact hi
  | starCons h1 h2 ih1 ih2 => exact ih2 (ih1 hi)

theorem mem_endsOf_char {s : List Char} {c : Char} {i j : Nat} :
    j ∈ endsOf s (.char c) i ↔ s[i]? = some c ∧ j = i + 1 := by
  simp only [endsOf]
  cases hg : s[i]? with
  | none => simp
  | some d => by_cases hd : d = c <;> simp [hd]

theorem mem_endsOf_anyChar {s : List Char} {i j : Nat} :
    j ∈ endsOf s .anyChar i ↔ ∃ d, s[i]? = some d ∧ d ≠ '\n' ∧ j = i + 1 := by
  simp only [endsOf]
  cases hg : s[i]? with
  | none => simp
  | some d => by_cases hd : d = '\n' <;> simp [hd]

theorem mem_endsOf_beginText {s : List Char} {i j : Nat} :
    j ∈ endsOf s .beginText i ↔ i = 0 ∧ j = 0 := by
  simp only [endsOf]
  by_cases hi : i = 0 <;> simp [hi]

theorem mem_endsOf_endText {s : List Char} {i j : Nat} :
    j ∈ endsOf s .endText i ↔ i = s.length ∧ j = s.length := by
  simp only [endsOf]
  by_cases hi : i = s.length <;> simp [hi]

theorem starEnds_bound {step : Nat → List Nat} {L : Nat}
    (hb : ∀ a b, b ∈ step a → b = a ∨ b ≤ L) :
    ∀ {fuel i j}, j ∈ starEnds step fuel i → j = i ∨ j ≤ L := by
  intro fuel
  induction fuel with
  | zero => intro i j h; simp [starEnds] at h; exact Or.inl h
  | succ fuel ih =>
    intro i j h
    simp only [starEnds, List.mem_cons, List.mem_flatten, List.mem_map] at h
    rcases h with h | ⟨l, ⟨k, hk, hl⟩, hj⟩
    · exact Or.inl h
    · subst hl
      rcases ih hj with rfl | hle
      · rcases hb _ _ (List.mem_filter.mp hk).1 with h' | h'
        · exact Or.inl h'
        · exact Or.inr h'
      · exact Or.inr hle

theorem starEnds_sound {step : Nat → List Nat} :
    ∀ {fuel i j}, j ∈ starEnds step fuel i →
      Relation.ReflTransGen (StepRel step) i j := by
  intro fuel
  induction fuel with
  | zero => intro i j h; simp [starEnds] at h; subst h; exact .refl
  | succ fuel ih =>
    intro i j h
    simp only [starEnds, List.mem_cons, List.mem_flatten, List.mem_map] at h
    rcases h with rfl | ⟨l, ⟨k, hk, hl⟩, hj⟩
    · exact .refl
    · subst hl
      have hk' := List.mem_filter.mp hk
      exact .head ⟨hk'.1, by simpa using hk'.2⟩ (ih hj)

theorem starEnds_complete {step : Nat → List Nat} {L : Nat}
    (hb : ∀ a b, b ∈ step a → b = a ∨ b ≤ L) {i j : Nat}
    (h : Relation.ReflTransGen (StepRel step) i j) :
    ∀ {fuel}, L + 1 - i ≤ fuel → j ∈ starEnds step fuel i := by
  induction h using Relation.ReflTransGen.head_induction_on with
  | refl =>
    intro fuel _
    cases fuel with
    | zero => simp [starEnds]
    | succ fuel => simp [starEnds]
  | head hstep _ ih =>
    intro fuel hfuel
    rename_i a b _
    obtain ⟨hmem, hlt⟩ := hstep
    have hbL : b ≤ L := by
      rcases hb _ _ hmem with rfl | h' <;> omega
    cases fuel with
    | zero => omega
    | succ fuel =>
      have : j ∈ starEnds step fuel b := ih (by omega)
      simp only [starEnds, List.mem_cons, List.mem_flatten, List.mem_map]
      refine Or.inr ⟨starEnds step fuel b, ⟨b, ?_, rfl⟩, this⟩
      exact List.mem_filter.mpr ⟨hmem, by simpa using hlt⟩

theorem endsOf_bound {s : List Char} {r : Regex} :
    ∀ {i j}, j ∈ endsOf s r i → j = i ∨ j ≤ s.length := by
  induction r with
  | emptyStr => intro i j h; simp [endsOf] at h; exact Or.inl h
  | char c =>
    intro i j h
    obtain ⟨hg, rfl⟩ := mem_endsOf_char.mp h
    have := getElem?_some_lt hg
    omega
  | anyChar =>
    intro i j h
    obtain ⟨d, hg, -, rfl⟩ := mem_endsOf_anyChar.mp h
    have := getElem?_some_lt hg
    omega
  | beginText =>
    intro i j h
    obtain ⟨rfl, rfl⟩ := mem_endsOf_beginText.mp h
    exact Or.inl rfl
  | endText =>
    intro i j h
    obtain ⟨rfl, rfl⟩ := mem_endsOf_endText.mp h
    exact Or.inl rfl
  | concat r1 r2 ih1 ih2 =>
    intro i j h
    simp only [endsOf, List.mem_flatten, List.mem_map] at h
    obtain ⟨l, ⟨k, hk, hl⟩, hj⟩ := h
    subst hl
    rcases ih2 hj with rfl | h'
    · exact ih1 hk
    · exact Or.inr h'
  | alt r1 r2 ih1 ih2 =>
    intro i j h
    simp only [endsOf, List.mem_append] at h
    rcases h with h | h
    · exact ih1 h
    · exact ih2 h
  | star r ih =>
    intro i j h
    exact starEnds_bound (fun a b hb => ih hb) h

theorem sem_star_rtg {s : List Char} {r : Regex} {i j : Nat}
    (hstep : ∀ a b, Sem s r a b → b ∈ endsOf s r a)
    (h : Sem s (.star r) i j) :
    Relation.ReflTransGen (StepRel (endsOf s r)) i j := by
  have aux : ∀ r0 i j, Sem s r0 i j → r0 = .star r →
      Relation.ReflTransGen (StepRel (endsOf s r)) i j := by
    intro r0 i j h
    induction h with
    | starNil i => intro _; exact .refl
    | starCons h1 h2 ih1 ih2 =>
      intro hr
      injection hr with he
      subst he
      rcases Nat.eq_or_lt_of_le (Sem.le h1) with heq | hlt
      · subst heq
        exact ih2 rfl
      · exact .head ⟨hstep _ _ h1, hlt⟩ (ih2 rfl)
    | emptyStr i => intro hr; simp at hr
    | char c i h => intro hr; simp at hr
    | anyChar c i h hnl => intro hr; simp at hr
    | beginText => intro hr; simp at hr
    | endText => intro hr; simp at hr
    | concat h1 h2 ih1 ih2 => intro hr; simp at hr
    | altL h ih => intro hr; simp at hr
    | altR h ih => intro hr; simp at hr
  exact aux _ i j h rfl

theorem mem_endsOf_iff {s : List Char} {r : Regex} :
    ∀ {i j}, j ∈ endsOf s r i ↔ Sem s r i j := by
  induction r with
  | emptyStr =>
    intro i j
    simp only [endsOf, List.mem_singleton]
    constructor
    · rintro rfl; exact .emptyStr _
    · rintro ⟨⟩; rfl
  | char c =>
    intro i j
    rw [mem_endsOf_char]
    constructor
    · rintro ⟨hg, rfl⟩
      exact .char c i hg
    · rintro ⟨⟩
      rename_i hg
      exact ⟨hg, rfl⟩
  | anyChar =>
    intro i j
    rw [mem_endsOf_anyChar]
    constructor
    · rintro ⟨d, hg, hnl, rfl⟩
      exact .anyChar d i hg hnl
    · rintro ⟨⟩
      rename_i d hg hnl
      exact ⟨d, hnl, hg, rfl⟩
  | beginText =>
    intro i j
    rw [mem_endsOf_beginText]
    constructor
    · rintro ⟨rfl, rfl⟩
      exact .beginText
    · rintro ⟨⟩
      exact ⟨rfl, rfl⟩
  | endText =>
    intro i j
    rw [mem_endsOf_endText]
    constructor
    · rintro ⟨rfl, rfl⟩
      exact .endText
    · rintro ⟨⟩
      exact ⟨rfl, rfl⟩
  | concat r1 r2 ih1 ih2 =>
    intro i j
    simp only [endsOf, List.mem_flatten, List.mem_map]
    constructor
    · rintro ⟨l, ⟨k, hk, hl⟩, hj⟩
      subst hl
      exact .concat (ih1.mp hk) (ih2.mp hj)
    · rintro ⟨⟩
      rename_i k h1 h2
      exact ⟨_, ⟨k, ih1.mpr h1, rfl⟩, ih2.mpr h2⟩
  | alt r1 r2 ih1 ih2 =>
    intro i j
    simp only [endsOf, List.mem_append]
    constructor
    · rintro (h | h)
      · exact .altL (ih1.mp h)
      · exact .altR (ih2.mp h)
    · intro h
      cases h with
      | altL h => exact Or.inl (ih1.mpr h)
      | altR h => exact Or.inr (ih2.mpr h)
  | star r ih =>
    intro i j
    simp only [endsOf]
    constructor
    · intro h
      have hr := starEnds_sound h
      clear h
      induction hr using Relation.ReflTransGen.head_induction_on with
      | refl => exact .starNil j
      | head hstep _ ih2 => exact .starCons (ih.mp hstep.1) ih2
    · intro h
      refine starEnds_complete (fun a b hb => endsOf_bound hb)
        (sem_star_rtg (fun a b hsem => ih.mpr hsem) h) (by omega)

/-! ### Anchor-free regexes: positional semantics versus plain language -/

theorem slice_append {s : List Char} {i k j : Nat} (h1 : i ≤ k) (h2 : k ≤ j) :
    (s.drop i).take (k - i) ++ (s.drop k).take (j - k) = (s.drop i).take (j - i) := by
  have hd : s.drop k = (s.drop i).drop (k - i) := by
    rw [List.drop_drop]
    congr 1
    omega
  have hj : j - i = (k - i) + (j - k) := by omega
  rw [hd, hj, List.take_add]

theorem rlang_of_sem {s : List Char} {r : Regex} {i j : Nat}
    (haf : assertFree r = true) (h : Sem s r i j) :
    RLang r ((s.drop i).take (j - i)) := by
  induction h with
  | emptyStr i => simpa using RLang.emptyStr
  | char c i h =>
    have hlt := getElem?_some_lt h
    have hdrop : s.drop i = c :: s.drop (i + 1) := by
      rw [List.drop_eq_getElem_cons hlt]
      have : s[i] = c := by
        have := List.getElem?_eq_some_iff.mp h
        obtain ⟨h1, h2⟩ := this
        exact h2
      rw [this]
    rw [hdrop]
    simpa using RLang.char c
  | anyChar c i h hnl =>
    have hlt := getElem?_some_lt h
    have hdrop : s.drop i = c :: s.drop (i + 1) := by
      rw [List.drop_eq_getElem_cons hlt]
      have : s[i] = c := by
        have := List.getElem?_eq_some_iff.mp h
        obtain ⟨h1, h2⟩ := this
        exact h2
      rw [this]
    rw [hdrop]
    simpa using RLang.anyChar c hnl
  | beginText => simp [assertFree] at haf
  | endText => simp [assertFree] at haf
  | concat h1 h2 ih1 ih2 =>
    simp only [assertFree, Bool.and_eq_true] at haf
    have := RLang.concat (ih1 haf.1) (ih2 haf.2)
    rwa [slice_append (Sem.le h1) (Sem.le h2)] at this
  | altL h ih =>
    simp only [assertFree, Bool.and_eq_true] at haf
    exact RLang.altL (ih haf.1)
  | altR h ih =>
    simp only [assertFree, Bool.and_eq_true] at haf
    exact RLang.altR (ih haf.2)
  | starNil i => simpa using RLang.starNil
  | starCons h1 h2 ih1 ih2 =>
    simp only [assertFree] at haf
    have := RLang.starCons (ih1 haf) (ih2 haf)
    rwa [slice_append (Sem.le h1) (Sem.le h2)] at this

theorem sem_of_rlang {s : List Char} {r : Regex} {v : List Char}
    (h : RLang r v) :
    ∀ u w : List Char, s = u ++ v ++ w → Sem s r u.length (u.length + v.length) := by
  induction h with
  | emptyStr =>
    intro u w hs
    have h0 : Sem s Regex.emptyStr u.length u.length := Sem.emptyStr u.length
    simpa using h0
  | char c =>
    intro u w hs
    have hg : s[u.length]? = some c := by
      subst hs
      rw [List.append_assoc, List.getElem?_append_right (le_refl u.length)]
      simp
    exact Sem.char c u.length hg
  | anyChar c hnl =>
    intro u w hs
    have hg : s[u.length]? = some c := by
      subst hs
      rw [List.append_assoc, List.getElem?_append_right (le_refl u.length)]
      simp
    exact Sem.anyChar c u.length hg hnl
  | concat h1 h2 ih1 ih2 =>
    rename_i r1 r2 v1 v2
    intro u w hs
    have e1 : s = u ++ v1 ++ (v2 ++ w) := by
      rw [hs]
      simp [List.append_assoc]
    have e2 : s = (u ++ v1) ++ v2 ++ w := by
      rw [hs]
      simp [List.append_assoc]
    have s1 := ih1 u (v2 ++ w) e1
    have s2 := ih2 (u ++ v1) w e2
    simp only [List.length_append] at s2
    have := Sem.concat s1 s2
    simpa [Nat.add_assoc, List.length_append] using this
  | altL h ih =>
    intro u w hs
    exact Sem.altL (ih u w hs)
  | altR h ih =>
    intro u w hs
    exact Sem.altR (ih u w hs)
  | starNil =>
    intro u w hs
    rename_i r1
    have h0 : Sem s (Regex.star r1) u.length u.length := Sem.starNil u.length
    simpa using h0
  | starCons h1 h2 ih1 ih2 =>
    rename_i r1 v1 v2
    intro u w hs
    have e1 : s = u ++ v1 ++ (v2 ++ w) := by
      rw [hs]
      simp [List.append_assoc]
    have e2 : s = (u ++ v1) ++ v2 ++ w := by
      rw [hs]
      simp [List.append_assoc]
    have s1 := ih1 u (v2 ++ w) e1
    have s2 := ih2 (u ++ v1) w e2
    simp only [List.length_append] at s2
    have := Sem.starCons s1 s2
    simpa [Nat.add_assoc, List.length_append] using this

/-- For an anchor-free regex, the unanchored search of `matchString` succeeds
exactly when some contiguous substring of the text is in the regex's
language. -/
theorem searchAnywhere_iff_contains {r : Regex} {c : List Char}
    (haf : assertFree r = true) :
    searchAnywhere r c = true ↔ ∃ u v w, c = u ++ v ++ w ∧ RLang r v := by
  constructor
  · intro h
    simp only [searchAnywhere, List.any_eq_true, List.mem_range] at h
    obtain ⟨i, hi, hne⟩ := h
    simp only [Bool.not_eq_eq_eq_not, Bool.not_true, List.isEmpty_eq_false] at hne
    obtain ⟨j, hj⟩ := List.exists_mem_of_ne_nil _ hne
    have hsem := mem_endsOf_iff.mp hj
    have hij := Sem.le hsem
    have hjl : j ≤ c.length := Sem.le_length hsem (by omega)
    refine ⟨c.take i, (c.drop i).take (j - i), c.drop j, ?_, rlang_of_sem haf hsem⟩
    have hdj : c.drop j = ((c.drop i).drop (j - i)) := by
      rw [List.drop_drop]
      congr 1
      omega
    rw [hdj, List.append_assoc, List.take_append_drop, List.take_append_drop]
  · rintro ⟨u, v, w, rfl, hv⟩
    have hsem := sem_of_rlang hv u w rfl
    simp only [searchAnywhere, List.any_eq_true, List.mem_range]
    refine ⟨u.length, by simp [List.length_append]; omega, ?_⟩
    simp only [Bool.not_eq_eq_eq_not, Bool.not_true, List.isEmpty_eq_false]
    exact List.ne_nil_of_mem (mem_endsOf_iff.mpr hsem)

/-! ### Inversion principles for the declarative semantics -/

theorem sem_emptyStr_iff {s : List Char} {i j : Nat} :
    Sem s .emptyStr i j ↔ j = i := by
  rw [← mem_endsOf_iff]
  simp [endsOf]

theorem sem_beginText_iff {s : List Char} {i j : Nat} :
    Sem s .beginText i j ↔ i = 0 ∧ j = 0 := by
  rw [← mem_endsOf_iff, mem_endsOf_beginText]

theorem sem_endText_iff {s : List Char} {i j : Nat} :
    Sem s .endText i j ↔ i = s.length ∧ j = s.length := by
  rw [← mem_endsOf_iff, mem_endsOf_endText]

theorem sem_concat_iff {s : List Char} {r1 r2 : Regex} {i j : Nat} :
    Sem s (.concat r1 r2) i j ↔ ∃ k, Sem s r1 i k ∧ Sem s r2 k j := by
  rw [← mem_endsOf_iff]
  simp only [endsOf, List.mem_flatten, List.mem_map]
  constructor
  · rintro ⟨l, ⟨k, hk, rfl⟩, hj⟩
    exact ⟨k, mem_endsOf_iff.mp hk, mem_endsOf_iff.mp hj⟩
  · rintro ⟨k, h1, h2⟩
    exact ⟨_, ⟨k, mem_endsOf_iff.mpr h1, rfl⟩, mem_endsOf_iff.mpr h2⟩

theorem searchAnywhere_iff_sem {r : Regex} {c : List Char} :
    searchAnywhere r c = true ↔ ∃ i j, i ≤ c.length ∧ Sem c r i j := by
  simp only [searchAnywhere, List.any_eq_true, List.mem_range,
    Bool.not_eq_eq_eq_not, Bool.not_true, List.isEmpty_eq_false]
  constructor
  · rintro ⟨i, hi, hne⟩
    obtain ⟨j, hj⟩ := List.exists_mem_of_ne_nil _ hne
    exact ⟨i, j, by omega, mem_endsOf_iff.mp hj⟩
  · rintro ⟨i, j, hi, hsem⟩
    exact ⟨i, by omega, List.ne_nil_of_mem (mem_endsOf_iff.mpr hsem)⟩

/-! ### Parser composition lemmas -/

theorem parseAtom_repOp_none {c : Char} {cs : List Char} (h : isRepOp c = true) :
    parseAtom (c :: cs) = none := by
  simp only [isRepOp, Bool.or_eq_true, decide_eq_true_eq] at h
  rcases h with (h | h) | h <;> subst h <;> simp [parseAtom, isRepOp]

theorem parseSeqList_head_not_rep {c : Char} {cs : List Char} {items : List Regex}
    (h : parseSeqList (c :: cs) = some items) : isRepOp c = false := by
  cases hr : isRepOp c
  · rfl
  · have hpi : parseItem (c :: cs) = none := by
      unfold parseItem
      rw [parseAtom_repOp_none hr]
    rw [parseSeqList_cons_none hpi] at h
    exact absurd h (by simp)

theorem parseAtom_append (t : List Char) {c : Char} {cs rest : List Char} {r : Regex}
    (h : parseAtom (c :: cs) = some (r, rest)) :
    parseAtom (c :: (cs ++ t)) = some (r, rest ++ t) := by
  simp only [parseAtom] at h ⊢
  by_cases h1 : c = '\\'
  · rw [if_pos h1] at h ⊢
    match cs with
    | [] => exact absurd h (by simp)
    | d :: cs2 =>
      rw [List.cons_append]
      by_cases h2 : escapable d
      · simp only [h2, if_true, Option.some.injEq, Prod.mk.injEq] at h ⊢
        exact ⟨h.1, by rw [← h.2]⟩
      · simp [h2] at h
  · rw [if_neg h1] at h ⊢
    split_ifs at h ⊢ <;> simp_all

theorem parseItem_append (t : List Char) {cs rest : List Char} {r : Regex}
    (ht : ∀ d, t.head? = some d → isRepOp d = false)
    (h : parseItem cs = some (r, rest)) :
    parseItem (cs ++ t) = some (r, rest ++ t) := by
  match cs with
  | [] => exact absurd h (by simp [parseItem, parseAtom])
  | c :: cs' =>
    unfold parseItem at h ⊢
    cases ha : parseAtom (c :: cs') with
    | none => rw [ha] at h; exact absurd h (by simp)
    | some pr =>
      obtain ⟨r0, rest0⟩ := pr
      rw [ha] at h
      have ha2 := parseAtom_append t ha
      rw [List.cons_append, ha2]
      dsimp only at h ⊢
      match rest0 with
      | [] =>
        simp only [Option.some.injEq, Prod.mk.injEq] at h
        obtain ⟨rfl, rfl⟩ := h
        simp only [List.nil_append]
        match t with
        | [] => rfl
        | d :: ds =>
          have hd := ht d rfl
          simp [hd]
      | c2 :: rest2 =>
        simp only [List.cons_append]
        by_cases hrep : isRepOp c2
        · simp only [hrep, if_true] at h ⊢
          by_cases has : isAssertNode r0
          · simp only [has, if_true] at h
            exact absurd h (by simp)
          · simp only [has, Bool.false_eq_true, if_false] at h ⊢
            rcases Option.eq_none_or_eq_some (applyRep r0 c2) with hap | ⟨r2, hap⟩
            · rw [hap] at h
              exact absurd h (by simp)
            · rw [hap] at h ⊢
              dsimp only at h ⊢
              match rest2 with
              | [] =>
                simp only [Option.some.injEq, Prod.mk.injEq] at h
                obtain ⟨rfl, rfl⟩ := h
                simp only [List.nil_append]
                match t with
                | [] => rfl
                | d :: ds =>
                  have hd := ht d rfl
                  simp [hd]
              | d2 :: rest3 =>
                simp only [List.cons_append]
                by_cases hd2 : isRepOp d2
                · simp only [hd2, if_true] at h
                  exact absurd h (by simp)
                · simp only [hd2, Bool.false_eq_true, if_false] at h ⊢
                  simp only [Option.some.injEq, Prod.mk.injEq] at h
                  obtain ⟨rfl, rfl⟩ := h
                  simp
        · simp only [hrep, Bool.false_eq_true, if_false] at h ⊢
          simp only [Option.some.injEq, Prod.mk.injEq] at h
          obtain ⟨rfl, rfl⟩ := h
          simp

theorem parseSeqList_append_dollar :
    ∀ {cs : List Char} {items : List Regex}, parseSeqList cs = some items →
      parseSeqList (cs ++ ['$']) = some (items ++ [.endText]) := by
  have main : ∀ n (cs : List Char), cs.length ≤ n → ∀ items : List Regex,
      parseSeqList cs = some items →
      parseSeqList (cs ++ ['$']) = some (items ++ [.endText]) := by
    intro n
    induction n with
    | zero =>
      intro cs hlen items h
      match cs with
      | [] =>
        have h0 : items = [] := by
          simp only [parseSeqList, List.length_nil, parseSeqAux, Option.some.injEq] at h
          exact h.symm
        subst h0
        decide
      | c :: cs' => simp at hlen
    | succ n ih =>
      intro cs hlen items h
      match cs with
      | [] =>
        have h0 : items = [] := by
          simp only [parseSeqList, List.length_nil, parseSeqAux, Option.some.injEq] at h
          exact h.symm
        subst h0
        decide
      | c :: cs' =>
        cases hpi : parseItem (c :: cs') with
        | none => rw [parseSeqList_cons_none hpi] at h; exact absurd h (by simp)
        | some pr =>
          obtain ⟨r, rest⟩ := pr
          rw [parseSeqList_cons_some hpi] at h
          cases hrest : parseSeqList rest with
          | none => rw [hrest] at h; exact absurd h (by simp)
          | some rs =>
            rw [hrest] at h
            simp only [Option.map, Option.some.injEq] at h
            have hlen2 : rest.length ≤ n := by
              have := parseItem_length hpi
              simp only [List.length_cons] at this hlen
              omega
            have hrec := ih rest hlen2 rs hrest
            have hpi2 := parseItem_append ['$']
              (by intro d hd; simp at hd; subst hd; decide) hpi
            rw [List.cons_append] at hpi2 ⊢
            rw [parseSeqList_cons_some hpi2, hrec]
            simp [← h]
  intro cs items h
  exact main cs.length cs le_rfl items h

theorem splitBar_no_bar {cs : List Char} (h : '|' ∉ cs) : splitBar cs = [cs] := by
  induction cs with
  | nil => rfl
  | cons c cs ih =>
    simp only [splitBar]
    have hc : ¬ c = '|' := by
      intro hc
      exact h (by simp [hc])
    rw [if_neg hc, ih (fun hm => h (List.mem_cons_of_mem _ hm))]

theorem compile_no_bar {cs : List Char} (h : '|' ∉ cs) :
    compile cs = (parseSeqList cs).map foldSeq := by
  unfold compile
  rw [splitBar_no_bar h]
  simp only [compileParts]
  cases parseSeqList cs <;> simp [compileParts, foldAlt]

theorem compile_wrapped {p : List Char} {items : List Regex}
    (hbar : '|' ∉ p) (hp : parseSeqList p = some items) :
    compile ('^' :: (p ++ ['$'])) = some (foldSeq (.beginText :: (items ++ [.endText]))) := by
  have hbar2 : '|' ∉ '^' :: (p ++ ['$']) := by
    simp only [List.mem_cons, List.mem_append, List.mem_singleton]
    rintro (h | h | h)
    · exact absurd h (by decide)
    · exact hbar h
    · exact absurd h (by decide)
  rw [compile_no_bar hbar2]
  have ha : parseAtom ('^' :: (p ++ ['$'])) = some (.beginText, p ++ ['$']) := by
    simp [parseAtom]
  have hpi : parseItem ('^' :: (p ++ ['$'])) = some (.beginText, p ++ ['$']) := by
    unfold parseItem
    rw [ha]
    match p with
    | [] => decide
    | c :: p' =>
      rw [List.cons_append]
      have hc := parseSeqList_head_not_rep hp
      simp [hc, isAssertNode]
  rw [parseSeqList_cons_some hpi, parseSeqList_append_dollar hp]
  simp

/-! ### Full-match characterization of the anchored wrapper -/

theorem foldSeq_cons_ne (x : Regex) (l : List Regex) (h : l ≠ []) :
    foldSeq (x :: l) = .concat x (foldSeq l) := by
  match l with
  | [] => exact absurd rfl h
  | y :: l' => rfl

theorem sem_foldSeq_append_last {s : List Char} {l : List Regex} {y : Regex} {j : Nat}
    (hl : l ≠ []) :
    ∀ {i}, Sem s (foldSeq (l ++ [y])) i j ↔ ∃ k, Sem s (foldSeq l) i k ∧ Sem s y k j := by
  induction l with
  | nil => exact absurd rfl hl
  | cons x l' ih =>
    intro i
    match l' with
    | [] =>
      simp only [List.cons_append, List.nil_append]
      rw [foldSeq_cons_ne x [y] (by simp), sem_concat_iff]
      simp [foldSeq]
    | z :: l'' =>
      simp only [List.cons_append]
      rw [foldSeq_cons_ne x (z :: (l'' ++ [y])) (by simp), sem_concat_iff,
        foldSeq_cons_ne x (z :: l'') (by simp)]
      constructor
      · rintro ⟨k, hx, hrest⟩
        obtain ⟨m, h1, h2⟩ := (ih (by simp)).mp hrest
        exact ⟨m, sem_concat_iff.mpr ⟨k, hx, h1⟩, h2⟩
      · rintro ⟨m, hcat, h2⟩
        obtain ⟨k, hx, h1⟩ := sem_concat_iff.mp hcat
        exact ⟨k, hx, (ih (by simp)).mpr ⟨m, h1, h2⟩⟩

theorem searchAnywhere_anchored_iff {items : List Regex} {c : List Char} :
    searchAnywhere (foldSeq (.beginText :: (items ++ [.endText]))) c = true ↔
      Sem c (foldSeq items) 0 c.length := by
  rw [searchAnywhere_iff_sem]
  constructor
  · rintro ⟨i, j, hi, hsem⟩
    rw [foldSeq_cons_ne _ _ (by simp), sem_concat_iff] at hsem
    obtain ⟨k, hb, hrest⟩ := hsem
    obtain ⟨rfl, rfl⟩ := sem_beginText_iff.mp hb
    match items with
    | [] =>
      simp only [List.nil_append] at hrest
      have h2 : Sem c .endText 0 j := hrest
      obtain ⟨h0, rfl⟩ := sem_endText_iff.mp h2
      show Sem c (foldSeq []) 0 c.length
      rw [show foldSeq [] = .emptyStr from rfl, sem_emptyStr_iff]
      omega
    | x :: items' =>
      obtain ⟨k, h1, h2⟩ := (sem_foldSeq_append_last (by simp)).mp hrest
      obtain ⟨rfl, rfl⟩ := sem_endText_iff.mp h2
      exact h1
  · intro hsem
    refine ⟨0, c.length, by omega, ?_⟩
    rw [foldSeq_cons_ne _ _ (by simp), sem_concat_iff]
    refine ⟨0, Sem.beginText, ?_⟩
    match items with
    | [] =>
      have h0 : c.length = 0 := by
        have := sem_emptyStr_iff.mp hsem
        omega
      show Sem c (foldSeq [.endText]) 0 c.length
      rw [show foldSeq [.endText] = .endText from rfl, sem_endText_iff]
      omega
    | x :: items' =>
      exact (sem_foldSeq_append_last (by simp)).mpr ⟨c.length, hsem, Sem.endText⟩

/-- Characterization of the `^...$`-wrapped search used by `matchGlob`: for an
alternation-free pattern it is exactly a full match of the unwrapped
pattern. -/
theorem matchString_wrapped_iff {p c : List Char} {re : Regex}
    (hbar : '|' ∉ p) (hcomp : compile p = some re) :
    matchString ('^' :: (p ++ ['$'])) c = true ↔ Sem c re 0 c.length := by
  rw [compile_no_bar hbar] at hcomp
  cases hps : parseSeqList p with
  | none => rw [hps] at hcomp; cases hcomp
  | some items =>
    rw [hps] at hcomp
    simp only [Option.map, Option.some.injEq] at hcomp
    unfold matchString
    rw [compile_wrapped hbar hps]
    dsimp only
    rw [searchAnywhere_anchored_iff, hcomp]

theorem mem_replaceChar {old : Char} {rep s : List Char} {x : Char} :
    x ∈ replaceChar old rep s → x ∈ rep ∨ x ∈ s := by
  induction s with
  | nil => intro h; simp [replaceChar] at h
  | cons c cs ih =>
    intro h
    simp only [replaceChar] at h
    split at h
    · rw [List.mem_append] at h
      rcases h with h | h
      · exact Or.inl h
      · rcases ih h with h | h
        · exact Or.inl h
        · exact Or.inr (List.mem_cons_of_mem _ h)
    · rcases List.mem_cons.mp h with rfl | h
      · exact Or.inr (List.mem_cons_self _ _)
      · rcases ih h with h | h
        · exact Or.inl h
        · exact Or.inr (List.mem_cons_of_mem _ h)

theorem mem_globTranslate {p : List Char} {x : Char}
    (h : x ∈ globTranslate p) : x ∈ p ∨ x = '.' ∨ x = '*' := by
  unfold globTranslate at h
  rcases mem_replaceChar h with h | h
  · simp at h
    exact Or.inr (Or.inl h)
  · rcases mem_replaceChar h with h | h
    · simp at h
      rcases h with h | h
      · exact Or.inr (Or.inl h)
      · exact Or.inr (Or.inr h)
    · exact Or.inl h

/-! ### Assertion-freedom from the pattern's characters -/

theorem parseAtom_suffix {cs rest : List Char} {r : Regex}
    (h : parseAtom cs = some (r, rest)) : rest.IsSuffix cs := by
  match cs with
  | [] => exact absurd h (by simp [parseAtom])
  | c :: cs' =>
    simp only [parseAtom] at h
    repeat' split at h
    all_goals simp_all
    all_goals try (obtain ⟨h1, h2⟩ := h; subst h2)
    all_goals first
      | exact List.suffix_cons _ _
      | exact (List.suffix_cons _ _).trans (List.suffix_cons _ _)

theorem parseItem_suffix {cs rest : List Char} {r : Regex}
    (h : parseItem cs = some (r, rest)) : rest.IsSuffix cs := by
  unfold parseItem at h
  cases ha : parseAtom cs with
  | none => rw [ha] at h; exact absurd h (by simp)
  | some pr =>
    obtain ⟨r0, rest0⟩ := pr
    rw [ha] at h
    have hs0 := parseAtom_suffix ha
    simp only at h
    repeat' split at h
    all_goals simp_all
    all_goals try (obtain ⟨h1, h2⟩ := h; subst h2)
    all_goals first
      | exact (List.nil_suffix _)
      | exact hs0
      | exact ((List.suffix_cons _ _).trans hs0)

theorem applyRep_assertFree {r r2 : Regex} {c : Char}
    (h : applyRep r c = some r2) (haf : assertFree r = true) :
    assertFree r2 = true := by
  unfold applyRep at h
  split_ifs at h <;>
    first
      | (simp only [Option.some.injEq] at h
         subst h
         simp [assertFree, haf])
      | exact absurd h (by simp)

theorem parseAtom_assertFree {c : Char} {cs rest : List Char} {r : Regex}
    (h : parseAtom (c :: cs) = some (r, rest)) (h1 : c ≠ '^') (h2 : c ≠ '$') :
    assertFree r = true := by
  simp only [parseAtom] at h
  repeat' split at h
  all_goals simp_all
  all_goals (obtain ⟨ha, hb⟩ := h; subst ha; simp [assertFree])

theorem parseItem_assertFree {c : Char} {cs rest : List Char} {r : Regex}
    (h : parseItem (c :: cs) = some (r, rest)) (h1 : c ≠ '^') (h2 : c ≠ '$') :
    assertFree r = true := by
  unfold parseItem at h
  cases ha : parseAtom (c :: cs) with
  | none => rw [ha] at h; exact absurd h (by simp)
  | some pr =>
    obtain ⟨r0, rest0⟩ := pr
    rw [ha] at h
    have haf0 := parseAtom_assertFree ha h1 h2
    simp only at h
    repeat' split at h
    all_goals simp_all
    all_goals try (obtain ⟨hh1, hh2⟩ := h; subst hh1)
    all_goals first
      | exact haf0
      | (rename_i hap _; exact applyRep_assertFree hap haf0)
      | (rename_i hap; exact applyRep_assertFree hap haf0)

theorem parseSeqAux_assertFree :
    ∀ {fuel : Nat} {cs : List Char} {items : List Regex},
      parseSeqAux fuel cs = some items → '^' ∉ cs → '$' ∉ cs →
      ∀ r ∈ items, assertFree r = true := by
  intro fuel
  induction fuel with
  | zero =>
    intro cs items h _ _ r hr
    match cs with
    | [] =>
      simp only [parseSeqAux, Option.some.injEq] at h
      subst h
      simp at hr
    | c :: cs' => exact absurd h (by simp [parseSeqAux])
  | succ fuel ih =>
    intro cs items h hc1 hc2 r hr
    match cs with
    | [] =>
      simp only [parseSeqAux, Option.some.injEq] at h
      subst h
      simp at hr
    | c :: cs' =>
      simp only [parseSeqAux] at h
      cases hpi : parseItem (c :: cs') with
      | none => rw [hpi] at h; exact absurd h (by simp)
      | some pr =>
        obtain ⟨r1, rest⟩ := pr
        rw [hpi] at h
        dsimp only at h
        cases hrest : parseSeqAux fuel rest with
        | none => rw [hrest] at h; exact absurd h (by simp)
        | some rs =>
          rw [hrest] at h
          simp only [Option.some.injEq] at h
          subst h
          have hsub := (parseItem_suffix hpi).subset
          rcases List.mem_cons.mp hr with rfl | hr
          · exact parseItem_assertFree hpi
              (fun he => hc1 (by simp [he])) (fun he => hc2 (by simp [he]))
          · exact ih hrest (fun hm => hc1 (hsub hm)) (fun hm => hc2 (hsub hm)) r hr

theorem foldSeq_assertFree {items : List Regex}
    (h : ∀ r ∈ items, assertFree r = true) : assertFree (foldSeq items) = true := by
  induction items with
  | nil => rfl
  | cons x l ih =>
    match l with
    | [] => exact h x (by simp)
    | y :: l' =>
      rw [foldSeq_cons_ne x (y :: l') (by simp)]
      simp only [assertFree, Bool.and_eq_true]
      exact ⟨h x (by simp), ih (fun r hr => h r (List.mem_cons_of_mem _ hr))⟩

theorem foldAlt_assertFree {items : List Regex}
    (h : ∀ r ∈ items, assertFree r = true) : assertFree (foldAlt items) = true := by
  induction items with
  | nil => rfl
  | cons x l ih =>
    match l with
    | [] => exact h x (by simp)
    | y :: l' =>
      show assertFree (.alt x (foldAlt (y :: l'))) = true
      simp only [assertFree, Bool.and_eq_true]
      exact ⟨h x (by simp), ih (fun r hr => h r (List.mem_cons_of_mem _ hr))⟩

theorem mem_splitBar_subset :
    ∀ {cs part : List Char}, part ∈ splitBar cs → ∀ {x}, x ∈ part → x ∈ cs := by
  intro cs
  induction cs with
  | nil =>
    intro part hp x hx
    simp [splitBar] at hp
    subst hp
    simp at hx
  | cons c rest ih =>
    intro part hp x hx
    simp only [splitBar] at hp
    split at hp
    · rcases List.mem_cons.mp hp with rfl | hp
      · simp at hx
      · exact List.mem_cons_of_mem _ (ih hp hx)
    · cases hsb : splitBar rest with
      | nil =>
        rw [hsb] at hp
        simp at hp
        subst hp
        simp at hx
        simp [hx]
      | cons p ps =>
        rw [hsb] at hp
        rcases List.mem_cons.mp hp with rfl | hp
        · rcases List.mem_cons.mp hx with rfl | hx
          · simp
          · exact List.mem_cons_of_mem _ (ih (hsb ▸ List.mem_cons_self p ps) hx)
        · exact List.mem_cons_of_mem _ (ih (hsb ▸ List.mem_cons_of_mem _ hp) hx)

theorem compileParts_assertFree :
    ∀ {parts : List (List Char)} {rs : List Regex},
      compileParts parts = some rs →
      (∀ part ∈ parts, '^' ∉ part ∧ '$' ∉ part) →
      ∀ r ∈ rs, assertFree r = true := by
  intro parts
  induction parts with
  | nil =>
    intro rs h _ r hr
    simp only [compileParts, Option.some.injEq] at h
    subst h
    simp at hr
  | cons p ps ih =>
    intro rs h hch r hr
    simp only [compileParts] at h
    cases hps : parseSeqList p with
    | none => rw [hps] at h; exact absurd h (by simp)
    | some items =>
      rw [hps] at h
      dsimp only at h
      cases hcp : compileParts ps with
      | none => rw [hcp] at h; exact absurd h (by simp)
      | some qs =>
        rw [hcp] at h
        simp only [Option.some.injEq] at h
        subst h
        rcases List.mem_cons.mp hr with rfl | hr
        · obtain ⟨hc1, hc2⟩ := hch p (by simp)
          exact foldSeq_assertFree (parseSeqAux_assertFree hps hc1 hc2)
        · exact ih hcp (fun q hq => hch q (List.mem_cons_of_mem _ hq)) r hr

/-- A pattern containing no `^` and no `$` compiles to an anchor-free
regex. -/
theorem compile_assertFree {p : List Char} {re : Regex}
    (h1 : '^' ∉ p) (h2 : '$' ∉ p) (hc : compile p = some re) :
    assertFree re = true := by
  unfold compile at hc
  cases hcp : compileParts (splitBar p) with
  | none => rw [hcp] at hc; exact absurd hc (by simp)
  | some rs =>
    rw [hcp] at hc
    simp only [Option.some.injEq] at hc
    subst hc
    refine foldAlt_assertFree (compileParts_assertFree hcp ?_)
    intro part hpart
    exact ⟨fun hm => h1 (mem_splitBar_subset hpart hm),
      fun hm => h2 (mem_splitBar_subset hpart hm)⟩

/-! ### Character and trimming facts -/

theorem char_isUpper_iff (d : Char) : d.isUpper = true ↔ 65 ≤ d.toNat ∧ d.toNat ≤ 90 := by
  simp only [Char.isUpper, Bool.and_eq_true, decide_eq_true_eq, ge_iff_le]
  rfl

theorem char_toNat_ofNat_valid {m : Nat} (h : m < 55296) : (Char.ofNat m).toNat = m := by
  rw [Char.ofNat, dif_pos (Or.inl h)]
  simp [Char.ofNatAux, Char.toNat, UInt32.toNat]

theorem toLower_not_upper (c : Char) : (Char.toLower c).isUpper = false := by
  by_cases h : 65 ≤ c.toNat ∧ c.toNat ≤ 90
  · have he : Char.toLower c = Char.ofNat (c.toNat + 32) := by
      unfold Char.toLower
      simp [h.1, h.2]
    rw [he, Bool.eq_false_iff]
    intro hup
    rw [char_isUpper_iff, char_toNat_ofNat_valid (by omega)] at hup
    omega
  · have he : Char.toLower c = c := by
      unfold Char.toLower
      simp only []
      rw [if_neg]
      intro hc
      exact h ⟨hc.1, hc.2⟩
    rw [he, Bool.eq_false_iff]
    intro hup
    exact h ((char_isUpper_iff c).mp hup)

theorem char_upper_not_ws {c : Char} (h : c.isUpper = true) : c.isWhitespace = false := by
  rw [char_isUpper_iff] at h
  cases hw : c.isWhitespace
  · rfl
  · exfalso
    simp only [Char.isWhitespace, Bool.or_eq_true, decide_eq_true_eq] at hw
    rcases hw with ((rfl | rfl) | rfl) | rfl <;> revert h <;> decide

theorem trimL_eq_nil_of_whitespace {s : List Char}
    (h : ∀ c ∈ s, c.isWhitespace = true) : trimL s = [] := by
  unfold trimL
  have h1 : s.dropWhile Char.isWhitespace = [] := List.dropWhile_eq_nil_iff.mpr h
  rw [h1]
  rfl

theorem ws_of_trimL_eq_nil {s : List Char} (h : trimL s = []) :
    ∀ c ∈ s, c.isWhitespace = true := by
  unfold trimL at h
  rw [List.reverse_eq_nil_iff, List.dropWhile_eq_nil_iff] at h
  intro c hc
  have hsplit : s.takeWhile Char.isWhitespace ++ s.dropWhile Char.isWhitespace = s :=
    List.takeWhile_append_dropWhile _ _
  rw [← hsplit, List.mem_append] at hc
  rcases hc with hc | hc
  · exact List.mem_takeWhile_imp hc
  · exact h c (List.mem_reverse.mpr hc)

theorem toLowerL_eq_nil_iff {s : List Char} : toLowerL s = [] ↔ s = [] := by
  simp [toLowerL]

theorem not_mem_toLowerL_of_upper {ch : Char} (hup : ch.isUpper = true)
    (t : List Char) : ch ∉ toLowerL t := by
  intro hm
  simp only [toLowerL, List.mem_map] at hm
  obtain ⟨y, -, hy⟩ := hm
  rw [← hy] at hup
  rw [toLower_not_upper y] at hup
  cases hup

/-! ### Claim C3: invalid regex patterns are rejected without writing -/

/-- C3: for every pattern that does not compile as a regular expression,
`AddRule(p, Regex)` (that is, `BlockDomainWithType p "regex"`) returns `false`
and leaves the rule store unchanged. -/
theorem c3_invalid_regex_rejected (tbl : List BlockRule) (now : Nat) (p : List Char)
    (h : compile (trimL p) = none) :
    BlockDomainWithType tbl now p ("regex") = (false, tbl) := by
  by_cases h0 : trimL p = []
  · rw [h0] at h
    exact absurd h (by decide)
  · unfold BlockDomainWithType
    rw [if_neg h0]
    have hd : storedKey ("regex") p = trimL p := by
      unfold storedKey coercedType isValidType
      simp
    simp only [hd]
    rw [if_pos]
    rw [h]
    unfold coercedType isValidType
    simp

/-- Witness for C3 at the spec's own example `"invalid-regex["`. -/
theorem c3_invalid_regex_rejected_witness :
    compile (trimL (strL ("invalid-regex["))) = none ∧
    BlockDomainWithType [] 0 (strL ("invalid-regex[")) ("regex") = (false, []) :=
  ⟨by decide, c3_invalid_regex_rejected [] 0 (strL ("invalid-regex[")) (by decide)⟩

/-! ### Claim C7: blank input is a boolean-false no-op everywhere -/

/-- C7: an input that is empty or all whitespace makes `AddRule` (any
dialect), `RemoveRule`, and `IsBlocked` return `false` while leaving the table
untouched; being total Lean functions, they cannot panic. -/
theorem c7_blank_input_noop (tbl : List BlockRule) (now : Nat) (ft : String)
    (s : List Char) (hws : ∀ c ∈ s, c.isWhitespace = true) :
    BlockDomainWithType tbl now s ft = (false, tbl) ∧
    UnblockDomain tbl s = (false, tbl) ∧
    IsDomainBlocked tbl s = false := by
  have ht : trimL s = [] := trimL_eq_nil_of_whitespace hws
  have ht2 : toLowerL (trimL s) = [] := by rw [ht]; rfl
  refine ⟨?_, ?_, ?_⟩
  · unfold BlockDomainWithType
    rw [if_pos ht]
  · unfold UnblockDomain
    rw [ht2]
    simp
  · unfold IsDomainBlocked
    rw [ht2]
    simp

/-- Witness for C7 on the whitespace-only input `"   "`. -/
theorem c7_blank_input_noop_witness :
    (∀ c ∈ strL ("   "), c.isWhitespace = true) ∧
    (BlockDomainWithType [] 0 (strL ("   ")) ("exact") = (false, []) ∧
     UnblockDomain [] (strL ("   ")) = (false, []) ∧
     IsDomainBlocked [] (strL ("   ")) = false) :=
  ⟨by decide, c7_blank_input_noop [] 0 ("exact") (strL ("   ")) (by decide)⟩

/-! ### Claim C8: RemoveRule is an idempotent exact-key delete -/

/-- C8: for a pattern that is non-empty after trimming, `RemoveRule`
normalizes (trim + lowercase) and deletes by exact key; it returns `true`
whether or not a row existed, so two consecutive calls both return `true` and
the second changes nothing; and in a store whose only rule is the Exact rule
for that pattern, `IsBlocked` returns `false` after the first call. -/
theorem c8_remove_idempotent (tbl : List BlockRule) (p : List Char) (t : Nat)
    (hp : trimL p ≠ []) :
    (UnblockDomain tbl p).1 = true ∧
    (UnblockDomain (UnblockDomain tbl p).2 p).1 = true ∧
    (UnblockDomain (UnblockDomain tbl p).2 p).2 = (UnblockDomain tbl p).2 ∧
    IsDomainBlocked (UnblockDomain [⟨toLowerL (trimL p), "exact", t⟩] p).2 p = false := by
  have hlow : toLowerL (trimL p) ≠ [] := fun he => hp (toLowerL_eq_nil_iff.mp he)
  have hU : ∀ tb : List BlockRule, UnblockDomain tb p
      = (true, tb.filter (fun r => !decide (r.domain = toLowerL (trimL p)))) := by
    intro tb
    unfold UnblockDomain
    rw [if_neg hlow]
  refine ⟨?_, ?_, ?_, ?_⟩
  · simp only [hU]
  · simp only [hU]
  · simp only [hU]
    simp [List.filter_filter]
  · simp only [hU]
    unfold IsDomainBlocked
    rw [if_neg hlow]
    simp

/-- Witness for C8 on the pattern `" Foo.com "`. -/
theorem c8_remove_idempotent_witness :
    trimL (strL (" Foo.com ")) ≠ [] ∧
    ((UnblockDomain [] (strL (" Foo.com "))).1 = true ∧
     (UnblockDomain (UnblockDomain [] (strL (" Foo.com "))).2 (strL (" Foo.com "))).1 = true ∧
     (UnblockDomain (UnblockDomain [] (strL (" Foo.com "))).2 (strL (" Foo.com "))).2
       = (UnblockDomain [] (strL (" Foo.com "))).2 ∧
     IsDomainBlocked
       (UnblockDomain [⟨toLowerL (trimL (strL (" Foo.com "))), "exact", 7⟩]
         (strL (" Foo.com "))).2 (strL (" Foo.com ")) = false) :=
  ⟨by decide, c8_remove_idempotent [] (strL (" Foo.com ")) 7 (by decide)⟩

/-! ### Claim C9: re-adding an existing pattern is an ignored insert -/

/-- C9 (amended): if the stored form of the pattern already keys a row,
`AddRule` leaves the table entirely unchanged (so the existing row keeps its
dialect and creation time) and returns `true` — provided that, when the
requested dialect is Regex, the pattern compiles; a non-compiling Regex
pattern is rejected with `false` (still leaving the table unchanged). -/
theorem c9_existing_pattern_ignored (tbl : List BlockRule) (now : Nat)
    (p : List Char) (ft : String)
    (h0 : trimL p ≠ [])
    (hmem : storedKey ft p ∈ tbl.map (fun r => r.domain))
    (hre : coercedType ft = "regex" → (compile (storedKey ft p)).isSome = true) :
    BlockDomainWithType tbl now p ft = (true, tbl) := by
  unfold BlockDomainWithType
  rw [if_neg h0]
  simp only
  have hany : tbl.any (fun r => decide (r.domain = storedKey ft p)) = true := by
    rw [List.any_eq_true]
    rw [List.mem_map] at hmem
    obtain ⟨r, hr, hrd⟩ := hmem
    exact ⟨r, hr, by simp [hrd]⟩
  by_cases hft : coercedType ft = "regex"
  · have : (compile (storedKey ft p)).isNone = false := by
      have h2 := hre hft
      cases hcc : compile (storedKey ft p)
      · rw [hcc] at h2
        exact absurd h2 (by decide)
      · rfl
    rw [this]
    simp only [Bool.and_false, Bool.false_eq_true, if_false]
    rw [if_pos hany]
  · have : (decide (coercedType ft = "regex")) = false := by simp [hft]
    simp only [this, Bool.false_and, Bool.false_eq_true, if_false]
    rw [if_pos hany]

/-- Counterexample to C9 as stated: with the glob rule `a[` stored, re-adding
the same pattern under the Regex dialect returns `false` (the pattern does not
compile), not `true` — though the table is indeed unchanged. -/
theorem c9_existing_pattern_ignored_cex :
    storedKey ("regex") (strL ("a["))
      ∈ ([⟨strL ("a["), "glob", 0⟩] : List BlockRule).map (fun r => r.domain) ∧
    BlockDomainWithType [⟨strL ("a["), "glob", 0⟩] 1 (strL ("a[")) ("regex")
      = (false, [⟨strL ("a["), "glob", 0⟩]) := by
  constructor
  · decide
  · decide

/-- Witness for C9 (amended): re-adding `"EX.com"` over the stored exact rule
`ex.com` returns `true` and keeps the row with its original metadata. -/
theorem c9_existing_pattern_ignored_witness :
    trimL (strL ("EX.com")) ≠ [] ∧
    storedKey ("exact") (strL ("EX.com"))
      ∈ ([⟨strL ("ex.com"), "exact", 5⟩] : List BlockRule).map (fun r => r.domain) ∧
    BlockDomainWithType [⟨strL ("ex.com"), "exact", 5⟩] 9 (strL ("EX.com")) ("exact")
      = (true, [⟨strL ("ex.com"), "exact", 5⟩]) :=
  ⟨by decide, by decide,
    c9_existing_pattern_ignored [⟨strL ("ex.com"), "exact", 5⟩] 9 (strL ("EX.com")) ("exact")
      (by decide) (by decide) (by decide)⟩

/-! ### Claim C10: uppercase Regex rules survive RemoveRule -/

/-- C10 (amended): a stored Regex rule whose pattern contains an uppercase
letter can never be deleted by `RemoveRule` with that exact pattern: the call
returns `true` but the rule remains, because the argument is lowercased before
the exact-key delete.  (Rows of other rules whose key does equal the lowercased
argument are deleted, so the store as a whole may still change.) -/
theorem c10_uppercase_regex_survives (tbl : List BlockRule) (dom : List Char) (cr : Nat)
    (hmem : (⟨dom, "regex", cr⟩ : BlockRule) ∈ tbl)
    (hup : ∃ ch ∈ dom, ch.isUpper = true) :
    (UnblockDomain tbl dom).1 = true ∧
    (⟨dom, "regex", cr⟩ : BlockRule) ∈ (UnblockDomain tbl dom).2 := by
  obtain ⟨ch, hch, hchup⟩ := hup
  have hne : dom ≠ toLowerL (trimL dom) := by
    intro he
    exact not_mem_toLowerL_of_upper hchup (trimL dom) (he ▸ hch)
  have hnil : toLowerL (trimL dom) ≠ [] := by
    intro he
    have htr := toLowerL_eq_nil_iff.mp he
    have := ws_of_trimL_eq_nil htr ch hch
    rw [char_upper_not_ws hchup] at this
    cases this
  constructor
  · unfold UnblockDomain
    rw [if_neg hnil]
  · unfold UnblockDomain
    rw [if_neg hnil]
    simp only
    rw [List.mem_filter]
    exact ⟨hmem, by simp [hne]⟩

/-- Counterexample to C10's "deletes nothing": with the Regex rule `Foo` and
the Exact rule `foo` both stored, `RemoveRule("Foo")` keeps the Regex rule but
deletes the Exact row, so the store does change. -/
theorem c10_uppercase_regex_survives_cex :
    (UnblockDomain [⟨strL ("Foo"), "regex", 0⟩, ⟨strL ("foo"), "exact", 1⟩] (strL ("Foo"))).1
      = true ∧
    (UnblockDomain [⟨strL ("Foo"), "regex", 0⟩, ⟨strL ("foo"), "exact", 1⟩] (strL ("Foo"))).2
      = [⟨strL ("Foo"), "regex", 0⟩] ∧
    (UnblockDomain [⟨strL ("Foo"), "regex", 0⟩, ⟨strL ("foo"), "exact", 1⟩] (strL ("Foo"))).2
      ≠ [⟨strL ("Foo"), "regex", 0⟩, ⟨strL ("foo"), "exact", 1⟩] := by
  refine ⟨by decide, by decide, by decide⟩

/-- Witness for C10 (amended) on the stored Regex rule `Foo`. -/
theorem c10_uppercase_regex_survives_witness :
    (⟨strL ("Foo"), "regex", 0⟩ : BlockRule) ∈ [(⟨strL ("Foo"), "regex", 0⟩ : BlockRule)] ∧
    (∃ ch ∈ strL ("Foo"), ch.isUpper = true) ∧
    ((UnblockDomain [⟨strL ("Foo"), "regex", 0⟩] (strL ("Foo"))).1 = true ∧
      (⟨strL ("Foo"), "regex", 0⟩ : BlockRule)
        ∈ (UnblockDomain [⟨strL ("Foo"), "regex", 0⟩] (strL ("Foo"))).2) :=
  ⟨by decide, by decide,
    c10_uppercase_regex_survives [⟨strL ("Foo"), "regex", 0⟩] (strL ("Foo")) 0
      (by decide) (by decide)⟩

/-! ### Claims C1 and C2: the dialect match semantics -/

/-- C1 (amended): for a stored Glob rule whose (lowercased) pattern
contains no `|` and whose translation compiles, and a candidate that is
non-empty after normalization, the rule matches exactly when the candidate
fully matches — anchored at both ends — the regex obtained by replacing `*`
with `.*` and `?` with `.` with no escaping of other characters (so `.` in the
glob matches any single character); and `IsBlocked` returns `true` whenever
some stored rule matches. -/
theorem c1_glob_full_match (rule : BlockRule) (c : List Char)
    (hty : rule.filterType = "glob")
    (hc : toLowerL (trimL c) ≠ [])
    (hbar : '|' ∉ toLowerL rule.domain)
    (hcomp : (compile (globTranslate (toLowerL rule.domain))).isSome = true) :
    (matchesRule (toLowerL (trimL c)) rule = true ↔
      specFullPatternMatch (globTranslate (toLowerL rule.domain)) (toLowerL (trimL c))) ∧
    ∀ tbl : List BlockRule, rule ∈ tbl →
      matchesRule (toLowerL (trimL c)) rule = true → IsDomainBlocked tbl c = true := by
  have hbar2 : '|' ∉ globTranslate (toLowerL rule.domain) := by
    intro hm
    rcases mem_globTranslate hm with h | h | h
    · exact hbar h
    · exact absurd h (by decide)
    · exact absurd h (by decide)
  obtain ⟨re, hre⟩ := Option.isSome_iff_exists.mp hcomp
  constructor
  · have hm : matchesRule (toLowerL (trimL c)) rule
        = matchGlob (toLowerL (trimL c)) (toLowerL rule.domain) := by
      simp [matchesRule, hty]
    rw [hm]
    unfold matchGlob
    rw [matchString_wrapped_iff hbar2 hre]
    unfold specFullPatternMatch
    constructor
    · intro hsem
      exact ⟨re, hre, hsem⟩
    · rintro ⟨re', hre', hsem⟩
      rw [hre] at hre'
      injection hre' with he
      subst he
      exact hsem
  · intro tbl hmem hmatch
    unfold IsDomainBlocked
    rw [if_neg hc, List.any_eq_true]
    exact ⟨rule, hmem, hmatch⟩

/-- Counterexample to C1 as stated: for the Glob pattern `a|b` the translated
regex is embedded between `^` and `$` by plain string concatenation, and since
alternation binds loosest the anchors attach only to the outer branches —
`matchGlob` accepts the candidate `xb`, which does not fully match `a|b`. -/
theorem c1_glob_full_match_cex :
    matchesRule (toLowerL (trimL (strL ("xb")))) ⟨strL ("a|b"), "glob", 0⟩ = true ∧
    ¬ specFullPatternMatch (globTranslate (toLowerL (strL ("a|b"))))
        (toLowerL (trimL (strL ("xb")))) := by
  constructor
  · decide
  · rintro ⟨re, hre, hsem⟩
    have hcomp : compile (globTranslate (toLowerL (strL ("a|b"))))
        = some (Regex.alt (.char 'a') (.char 'b')) := by decide
    rw [hcomp] at hre
    injection hre with he
    subst he
    rw [← mem_endsOf_iff] at hsem
    revert hsem
    decide

/-- Witness for C1 (amended) on the spec's own example `*.example.com` matched
against `Sub.example.com`. -/
theorem c1_glob_full_match_witness :
    toLowerL (trimL (strL ("Sub.example.com"))) ≠ [] ∧
    '|' ∉ toLowerL (strL ("*.example.com")) ∧
    (compile (globTranslate (toLowerL (strL ("*.example.com"))))).isSome = true ∧
    ((matchesRule (toLowerL (trimL (strL ("Sub.example.com"))))
        ⟨strL ("*.example.com"), "glob", 0⟩ = true ↔
      specFullPatternMatch (globTranslate (toLowerL (strL ("*.example.com"))))
        (toLowerL (trimL (strL ("Sub.example.com"))))) ∧
     ∀ tbl : List BlockRule, (⟨strL ("*.example.com"), "glob", 0⟩ : BlockRule) ∈ tbl →
       matchesRule (toLowerL (trimL (strL ("Sub.example.com"))))
         ⟨strL ("*.example.com"), "glob", 0⟩ = true →
       IsDomainBlocked tbl (strL ("Sub.example.com")) = true) :=
  ⟨by decide, by decide, by decide,
    c1_glob_full_match ⟨strL ("*.example.com"), "glob", 0⟩ (strL ("Sub.example.com"))
      rfl (by decide) (by decide) (by decide)⟩

/-- C2: for a stored Regex rule whose pattern has no `^`/`$` anchors and
compiles, and a candidate non-empty after normalization, the rule matches
exactly when the pattern — used verbatim and unanchored — matches somewhere
within the normalized candidate (contains-semantics); and `IsBlocked` returns
`true` whenever some stored rule matches. -/
theorem c2_regex_contains (rule : BlockRule) (c : List Char)
    (hty : rule.filterType = "regex")
    (hc : toLowerL (trimL c) ≠ [])
    (hanch1 : '^' ∉ rule.domain) (hanch2 : '$' ∉ rule.domain)
    (hcomp : (compile rule.domain).isSome = true) :
    (matchesRule (toLowerL (trimL c)) rule = true ↔
      specContainsMatch rule.domain (toLowerL (trimL c))) ∧
    ∀ tbl : List BlockRule, rule ∈ tbl →
      matchesRule (toLowerL (trimL c)) rule = true → IsDomainBlocked tbl c = true := by
  obtain ⟨re, hre⟩ := Option.isSome_iff_exists.mp hcomp
  have haf := compile_assertFree hanch1 hanch2 hre
  constructor
  · have hm : matchesRule (toLowerL (trimL c)) rule
        = matchRegex (toLowerL (trimL c)) rule.domain := by
      simp [matchesRule, hty]
    rw [hm]
    unfold matchRegex matchString
    rw [hre]
    dsimp only
    rw [searchAnywhere_iff_contains haf]
    unfold specContainsMatch
    constructor
    · rintro ⟨u, v, w, hsplit, hv⟩
      exact ⟨u, v, w, hsplit, re, hre, hv⟩
    · rintro ⟨u, v, w, hsplit, re', hre', hv⟩
      rw [hre] at hre'
      injection hre' with he
      subst he
      exact ⟨u, v, w, hsplit, hv⟩
  · intro tbl hmem hmatch
    unfold IsDomainBlocked
    rw [if_neg hc, List.any_eq_true]
    exact ⟨rule, hmem, hmatch⟩

/-- Witness for C2: the unanchored pattern `example` found inside
`sub.example.com`. -/
theorem c2_regex_contains_witness :
    toLowerL (trimL (strL ("sub.example.com"))) ≠ [] ∧
    '^' ∉ strL ("example") ∧ '$' ∉ strL ("example") ∧
    (compile (strL ("example"))).isSome = true ∧
    ((matchesRule (toLowerL (trimL (strL ("sub.example.com"))))
        ⟨strL ("example"), "regex", 0⟩ = true ↔
      specContainsMatch (strL ("example")) (toLowerL (trimL (strL ("sub.example.com"))))) ∧
     ∀ tbl : List BlockRule, (⟨strL ("example"), "regex", 0⟩ : BlockRule) ∈ tbl →
       matchesRule (toLowerL (trimL (strL ("sub.example.com"))))
         ⟨strL ("example"), "regex", 0⟩ = true →
       IsDomainBlocked tbl (strL ("sub.example.com")) = true) :=
  ⟨by decide, by decide, by decide, by decide,
    c2_regex_contains ⟨strL ("example"), "regex", 0⟩ (strL ("sub.example.com"))
      rfl (by decide) (by decide) (by decide) (by decide)⟩

/-! ### The swap sort: permutation and sortedness -/

theorem selectPass_fst_le (x : ConnectionData) (l : List ConnectionData) :
    (selectPass x l).1.timestamp ≤ x.timestamp := by
  induction l generalizing x with
  | nil => simp [selectPass]
  | cons y ys ih =>
    simp only [selectPass]
    split
    · rename_i hgt
      exact le_trans (ih y) (by omega)
    · exact ih x

theorem selectPass_min (x : ConnectionData) (l : List ConnectionData) :
    ∀ z ∈ (selectPass x l).2, (selectPass x l).1.timestamp ≤ z.timestamp := by
  induction l generalizing x with
  | nil => simp [selectPass]
  | cons y ys ih =>
    simp only [selectPass]
    split
    · rename_i hgt
      intro z hz
      rcases List.mem_cons.mp hz with rfl | hz
      · exact le_trans (selectPass_fst_le y ys) (by omega)
      · exact ih y z hz
    · rename_i hle
      intro z hz
      rcases List.mem_cons.mp hz with rfl | hz
      · exact le_trans (selectPass_fst_le x ys) (by omega)
      · exact ih x z hz

theorem selectPass_perm (x : ConnectionData) (l : List ConnectionData) :
    ((selectPass x l).1 :: (selectPass x l).2).Perm (x :: l) := by
  induction l generalizing x with
  | nil => simp [selectPass]
  | cons y ys ih =>
    simp only [selectPass]
    split
    · exact (List.Perm.swap x _ _).trans ((ih y).cons x)
    · exact ((List.Perm.swap y _ _).trans ((ih x).cons y)).trans (List.Perm.swap x y ys)

theorem selSort_perm :
    ∀ (l : List ConnectionData), (selSort l).Perm l := by
  have main : ∀ (n : Nat) (l : List ConnectionData), l.length ≤ n → (selSort l).Perm l := by
    intro n
    induction n with
    | zero =>
      intro l hl
      match l with
      | [] => simp [selSort_nil]
      | x :: xs => simp at hl
    | succ n ih =>
      intro l hl
      match l with
      | [] => simp [selSort_nil]
      | x :: xs =>
        rw [selSort_cons]
        have hlen : (selectPass x xs).2.length ≤ n := by
          rw [selectPass_length]
          simp only [List.length_cons] at hl
          omega
        exact ((ih _ hlen).cons _).trans (selectPass_perm x xs)
  intro l
  exact main l.length l le_rfl

theorem selSort_sorted :
    ∀ (l : List ConnectionData),
      (selSort l).Pairwise (fun a b => a.timestamp ≤ b.timestamp) := by
  have main : ∀ (n : Nat) (l : List ConnectionData), l.length ≤ n →
      (selSort l).Pairwise (fun a b => a.timestamp ≤ b.timestamp) := by
    intro n
    induction n with
    | zero =>
      intro l hl
      match l with
      | [] => simp [selSort_nil]
      | x :: xs => simp at hl
    | succ n ih =>
      intro l hl
      match l with
      | [] => simp [selSort_nil]
      | x :: xs =>
        rw [selSort_cons]
        have hlen : (selectPass x xs).2.length ≤ n := by
          rw [selectPass_length]
          simp only [List.length_cons] at hl
          omega
        refine List.Pairwise.cons ?_ (ih _ hlen)
        intro z hz
        have hz2 : z ∈ (selectPass x xs).2 :=
          (selSort_perm _).subset hz
        exact selectPass_min x xs z hz2
  intro l
  exact main l.length l le_rfl

/-! ### Aggregation invariants of the dashboard fold -/

theorem bumpGroup_timestamp (g : ConnectionData) (ap : Bool) :
    (bumpGroup g ap).timestamp = g.timestamp := rfl

theorem updateGroups_counts (key : Int) (ap : Bool) (gs : List ConnectionData) :
    (((updateGroups key ap gs).map (fun g => g.count)).sum
        = ((gs.map (fun g => g.count)).sum) + 1) ∧
    (((updateGroups key ap gs).map (fun g => g.approved)).sum
        = ((gs.map (fun g => g.approved)).sum) + (if ap then 1 else 0)) ∧
    (((updateGroups key ap gs).map (fun g => g.rejected)).sum
        = ((gs.map (fun g => g.rejected)).sum) + (if ap then 0 else 1)) := by
  induction gs with
  | nil => cases ap <;> simp [updateGroups, bumpGroup]
  | cons g gs ih =>
    simp only [updateGroups]
    split
    · cases ap <;>
        simp only [List.map_cons, List.sum_cons, bumpGroup, Bool.false_eq_true,
          reduceIte] <;>
        refine ⟨by omega, by omega, by omega⟩
    · obtain ⟨ih1, ih2, ih3⟩ := ih
      simp only [List.map_cons, List.sum_cons, ih1, ih2, ih3]
      refine ⟨by ring, by ring, by ring⟩

theorem updateGroups_keys (key : Int) (ap : Bool) (gs : List ConnectionData) :
    (updateGroups key ap gs).map (fun g => g.timestamp)
      = if key ∈ gs.map (fun g => g.timestamp) then gs.map (fun g => g.timestamp)
        else gs.map (fun g => g.timestamp) ++ [key] := by
  induction gs with
  | nil => simp [updateGroups, bumpGroup]
  | cons g gs ih =>
    simp only [updateGroups]
    split
    · rename_i he
      simp [bumpGroup, he]
    · rename_i he
      have hne : key ≠ g.timestamp := fun h => he h.symm
      simp only [List.map_cons, ih, List.mem_cons]
      by_cases hmem : key ∈ gs.map (fun g => g.timestamp)
      · simp [hmem, hne]
      · simp [hmem, hne]

theorem mem_updateGroups_keys (key k : Int) (ap : Bool) (gs : List ConnectionData) :
    k ∈ (updateGroups key ap gs).map (fun g => g.timestamp) ↔
      k ∈ gs.map (fun g => g.timestamp) ∨ k = key := by
  rw [updateGroups_keys]
  split
  · rename_i hmem
    constructor
    · exact Or.inl
    · rintro (h | rfl)
      · exact h
      · exact hmem
  · simp

theorem updateGroups_nodup_keys (key : Int) (ap : Bool) (gs : List ConnectionData)
    (h : (gs.map (fun g => g.timestamp)).Nodup) :
    ((updateGroups key ap gs).map (fun g => g.timestamp)).Nodup := by
  rw [updateGroups_keys]
  split
  · exact h
  · rename_i hmem
    simp [List.nodup_append, h, hmem]

theorem foldl_aggStep_inv (im : Int) (rows : List RequestRow) :
    ∀ st : AggState,
      ((st.groups.map (fun g => g.count)).sum = st.total) →
      ((st.groups.map (fun g => g.approved)).sum = st.approvedCount) →
      ((st.groups.map (fun g => g.rejected)).sum = st.rejectedCount) →
      (st.approvedCount + st.rejectedCount = st.total) →
      (((rows.foldl (aggStep im) st).groups.map (fun g => g.count)).sum
          = (rows.foldl (aggStep im) st).total) ∧
      (((rows.foldl (aggStep im) st).groups.map (fun g => g.approved)).sum
          = (rows.foldl (aggStep im) st).approvedCount) ∧
      (((rows.foldl (aggStep im) st).groups.map (fun g => g.rejected)).sum
          = (rows.foldl (aggStep im) st).rejectedCount) ∧
      ((rows.foldl (aggStep im) st).approvedCount
          + (rows.foldl (aggStep im) st).rejectedCount
          = (rows.foldl (aggStep im) st).total) := by
  induction rows with
  | nil => intro st h1 h2 h3 h4; exact ⟨h1, h2, h3, h4⟩
  | cons row rows ih =>
    intro st h1 h2 h3 h4
    rw [List.foldl_cons]
    obtain ⟨u1, u2, u3⟩ := updateGroups_counts
      (bucketKey im row.timestamp) (decide (row.decision = "approved")) st.groups
    refine ih (aggStep im st row) ?_ ?_ ?_ ?_ <;>
      simp only [aggStep, u1, u2, u3, h1, h2, h3] <;>
      cases hd : decide (row.decision = "approved") <;> simp <;> omega

theorem mem_foldl_aggStep_keys (im : Int) (rows : List RequestRow) :
    ∀ (st : AggState) (k : Int),
      k ∈ ((rows.foldl (aggStep im) st).groups.map (fun g => g.timestamp)) ↔
        k ∈ st.groups.map (fun g => g.timestamp)
          ∨ k ∈ rows.map (fun r => bucketKey im r.timestamp) := by
  induction rows with
  | nil => intro st k; simp
  | cons row rows ih =>
    intro st k
    rw [List.foldl_cons, ih]
    simp only [aggStep]
    rw [mem_updateGroups_keys]
    simp only [List.map_cons, List.mem_cons]
    tauto

theorem foldl_aggStep_nodup_keys (im : Int) (rows : List RequestRow) :
    ∀ st : AggState,
      ((st.groups.map (fun g => g.timestamp)).Nodup) →
      (((rows.foldl (aggStep im) st).groups.map (fun g => g.timestamp)).Nodup) := by
  induction rows with
  | nil => intro st h; exact h
  | cons row rows ih =>
    intro st h
    rw [List.foldl_cons]
    exact ih _ (updateGroups_nodup_keys _ _ _ h)

theorem tdiv_eq_fdiv_nonneg {a b : Int} (ha : 0 ≤ a) (hb : 0 < b) :
    a.tdiv b = a.fdiv b :=
  (Int.fdiv_eq_tdiv ha (le_of_lt hb)).symm

theorem bucketKey_eq_spec (range : String) (ts : Int) (hts : 0 ≤ ts) :
    bucketKey (getIntervalMinutes range) ts = specBucketKey range ts := by
  have hw : getIntervalMinutes range * 60 * 1000 = specBucketWidthMillis range := by
    unfold getIntervalMinutes specBucketWidthMillis
    split_ifs <;> norm_num
  have hwpos : 0 < specBucketWidthMillis range := by
    unfold specBucketWidthMillis
    split_ifs <;> norm_num
  unfold bucketKey specBucketKey
  rw [hw, tdiv_eq_fdiv_nonneg hts hwpos]

/-! ### Claim C4: bucket keys, the width mapping, and ascending order -/

/-- C4: `GetDashboard` assigns every fetched row the epoch-aligned bucket
key `floor(timestamp / bucketWidth) * bucketWidth`, with the width taken from
the fixed mapping (1h → 5 min, 6h → 30 min, 24h → 60 min, 7d → 6 h, 30d → 1 d,
unrecognized → 60 min), and emits the buckets in strictly ascending time
order; stated for clocks at least one window past the epoch, where Go's
truncating division agrees with the floor the specification describes. -/
theorem c4_dashboard_buckets (tbl : List RequestRow) (now : Int) (range : String)
    (h : 0 ≤ now - windowMillis range) :
    ((GetDashboardData tbl now range).connections.Pairwise
        (fun a b => a.timestamp < b.timestamp)) ∧
    (∀ cd ∈ (GetDashboardData tbl now range).connections,
      ∃ row ∈ fetchRows tbl (now - windowMillis range) now,
        cd.timestamp = specBucketKey range row.timestamp) ∧
    (∀ row ∈ fetchRows tbl (now - windowMillis range) now,
      ∃ cd ∈ (GetDashboardData tbl now range).connections,
        cd.timestamp = specBucketKey range row.timestamp) := by
  have hrow_nonneg : ∀ row ∈ fetchRows tbl (now - windowMillis range) now,
      0 ≤ row.timestamp := by
    intro row hrow
    unfold fetchRows at hrow
    rw [List.mem_filter] at hrow
    obtain ⟨-, hcond⟩ := hrow
    simp only [Bool.and_eq_true, decide_eq_true_eq] at hcond
    omega
  have hconn : (GetDashboardData tbl now range).connections
      = selSort ((fetchRows tbl (now - windowMillis range) now).foldl
          (aggStep (getIntervalMinutes range)) ⟨[], 0, 0, 0, []⟩).groups := rfl
  set st := (fetchRows tbl (now - windowMillis range) now).foldl
    (aggStep (getIntervalMinutes range)) (⟨[], 0, 0, 0, []⟩ : AggState) with hst
  have hkeys : ∀ k, k ∈ st.groups.map (fun g => g.timestamp) ↔
      k ∈ (fetchRows tbl (now - windowMillis range) now).map
        (fun r => bucketKey (getIntervalMinutes range) r.timestamp) := by
    intro k
    rw [hst, mem_foldl_aggStep_keys]
    simp
  have hnodup : (st.groups.map (fun g => g.timestamp)).Nodup := by
    rw [hst]
    exact foldl_aggStep_nodup_keys _ _ _ (by simp)
  refine ⟨?_, ?_, ?_⟩
  · rw [hconn]
    have hsorted := selSort_sorted st.groups
    have hnodup2 : ((selSort st.groups).map (fun g => g.timestamp)).Nodup := by
      have hperm := (selSort_perm st.groups).map (fun g => g.timestamp)
      exact hperm.nodup_iff.mpr hnodup
    have hne : (selSort st.groups).Pairwise
        (fun a b => a.timestamp ≠ b.timestamp) := by
      rw [List.Nodup, List.pairwise_map] at hnodup2
      exact hnodup2
    exact (hsorted.and hne).imp (fun hab => lt_of_le_of_ne hab.1 hab.2)
  · intro cd hcd
    rw [hconn] at hcd
    have hcd2 : cd ∈ st.groups := (selSort_perm st.groups).subset hcd
    have hk : cd.timestamp ∈ st.groups.map (fun g => g.timestamp) :=
      List.mem_map_of_mem _ hcd2
    rw [hkeys] at hk
    rw [List.mem_map] at hk
    obtain ⟨row, hrow, hrk⟩ := hk
    exact ⟨row, hrow, by
      rw [← hrk, bucketKey_eq_spec range row.timestamp (hrow_nonneg row hrow)]⟩
  · intro row hrow
    have hk : bucketKey (getIntervalMinutes range) row.timestamp
        ∈ st.groups.map (fun g => g.timestamp) := by
      rw [hkeys, List.mem_map]
      exact ⟨row, hrow, rfl⟩
    rw [List.mem_map] at hk
    obtain ⟨cd, hcd, hck⟩ := hk
    refine ⟨cd, ?_, ?_⟩
    · rw [hconn]
      exact ((selSort_perm st.groups).mem_iff).mpr hcd
    · rw [hck, bucketKey_eq_spec range row.timestamp (hrow_nonneg row hrow)]

/-- Witness for C4 with two rows in the `1h` window. -/
theorem c4_dashboard_buckets_witness :
    (0 ≤ (3700000 : Int) - windowMillis ("1h")) ∧
    (((GetDashboardData [⟨200000, "h", "GET", "/", 80, "approved", 1⟩,
        ⟨3650000, "h", "GET", "/", 80, "rejected", 1⟩] 3700000 ("1h")).connections.Pairwise
          (fun a b => a.timestamp < b.timestamp)) ∧
     (∀ cd ∈ (GetDashboardData [⟨200000, "h", "GET", "/", 80, "approved", 1⟩,
        ⟨3650000, "h", "GET", "/", 80, "rejected", 1⟩] 3700000 ("1h")).connections,
       ∃ row ∈ fetchRows [⟨200000, "h", "GET", "/", 80, "approved", 1⟩,
          ⟨3650000, "h", "GET", "/", 80, "rejected", 1⟩]
          ((3700000 : Int) - windowMillis ("1h")) 3700000,
         cd.timestamp = specBucketKey ("1h") row.timestamp) ∧
     (∀ row ∈ fetchRows [⟨200000, "h", "GET", "/", 80, "approved", 1⟩,
          ⟨3650000, "h", "GET", "/", 80, "rejected", 1⟩]
          ((3700000 : Int) - windowMillis ("1h")) 3700000,
       ∃ cd ∈ (GetDashboardData [⟨200000, "h", "GET", "/", 80, "approved", 1⟩,
          ⟨3650000, "h", "GET", "/", 80, "rejected", 1⟩] 3700000 ("1h")).connections,
         cd.timestamp = specBucketKey ("1h") row.timestamp)) :=
  ⟨by decide,
    c4_dashboard_buckets [⟨200000, "h", "GET", "/", 80, "approved", 1⟩,
      ⟨3650000, "h", "GET", "/", 80, "rejected", 1⟩] 3700000 ("1h") (by decide)⟩

/-! ### Claim C5: bucket counters sum to the window-wide totals -/

/-- C5: in every `GetDashboard` result the bucket counts sum to
`totalRequests`, the bucket approved/rejected counters sum to the window-wide
`approvedCount`/`rejectedCount`, and `approvedCount + rejectedCount =
totalRequests`. -/
theorem c5_dashboard_totals (tbl : List RequestRow) (now : Int) (range : String) :
    (((GetDashboardData tbl now range).connections.map (fun g => g.count)).sum
        = (GetDashboardData tbl now range).totalRequests) ∧
    ((GetDashboardData tbl now range).approvedCount
        + (GetDashboardData tbl now range).rejectedCount
        = (GetDashboardData tbl now range).totalRequests) ∧
    (((GetDashboardData tbl now range).connections.map (fun g => g.approved)).sum
        = (GetDashboardData tbl now range).approvedCount) ∧
    (((GetDashboardData tbl now range).connections.map (fun g => g.rejected)).sum
        = (GetDashboardData tbl now range).rejectedCount) := by
  set st := (fetchRows tbl (now - windowMillis range) now).foldl
    (aggStep (getIntervalMinutes range)) (⟨[], 0, 0, 0, []⟩ : AggState) with hst
  obtain ⟨h1, h2, h3, h4⟩ := foldl_aggStep_inv (getIntervalMinutes range)
    (fetchRows tbl (now - windowMillis range) now) ⟨[], 0, 0, 0, []⟩
    (by simp) (by simp) (by simp) (by simp)
  have hperm := selSort_perm st.groups
  have hcount : ((selSort st.groups).map (fun g => g.count)).sum
      = (st.groups.map (fun g => g.count)).sum :=
    (hperm.map (fun g => g.count)).sum_eq
  have happ : ((selSort st.groups).map (fun g => g.approved)).sum
      = (st.groups.map (fun g => g.approved)).sum :=
    (hperm.map (fun g => g.approved)).sum_eq
  have hrej : ((selSort st.groups).map (fun g => g.rejected)).sum
      = (st.groups.map (fun g => g.rejected)).sum :=
    (hperm.map (fun g => g.rejected)).sum_eq
  exact ⟨by rw [show (GetDashboardData tbl now range).connections = selSort st.groups from rfl,
      hcount]; exact h1,
    h4, by rw [show (GetDashboardData tbl now range).connections = selSort st.groups from rfl,
      happ]; exact h2,
    by rw [show (GetDashboardData tbl now range).connections = selSort st.groups from rfl,
      hrej]; exact h3⟩

/-! ### Claim C6: the bounded log queue never blocks the producer -/

/-- C6: `LogRequest`'s enqueue step is total (it always returns, never
blocking and never reporting an error to the producer): with free space in the
1000-slot channel the event is appended to the queue; with the queue full the
event is dropped — with only a logged warning — and the queue is unchanged;
and the capacity bound is preserved. -/
theorem c6_log_enqueue (q : List LogReq) (r : LogReq) :
    (q.length < logChannelCap → logRequestEnqueue q r = (q ++ [r], true)) ∧
    (logChannelCap ≤ q.length → logRequestEnqueue q r = (q, false)) ∧
    (q.length ≤ logChannelCap → (logRequestEnqueue q r).1.length ≤ logChannelCap) := by
  refine ⟨fun h => ?_, fun h => ?_, fun h => ?_⟩
  · unfold logRequestEnqueue
    rw [if_pos h]
  · unfold logRequestEnqueue
    rw [if_neg (by omega)]
  · unfold logRequestEnqueue
    split
    · simp only [List.length_append, List.length_cons, List.length_nil]
      omega
    · exact h

/-- Witness for C6: an enqueue into an empty queue and a drop from a full
queue of 1000 pending events. -/
theorem c6_log_enqueue_witness :
    (([] : List LogReq).length < logChannelCap ∧
      logRequestEnqueue [] ⟨"h", "GET", "/", 80, true, 5⟩
        = ([⟨"h", "GET", "/", 80, true, 5⟩], true)) ∧
    (logChannelCap ≤ (List.replicate 1000 (⟨"h", "GET", "/", 80, true, 5⟩ : LogReq)).length ∧
      logRequestEnqueue (List.replicate 1000 ⟨"h", "GET", "/", 80, true, 5⟩)
          ⟨"h", "GET", "/", 80, true, 5⟩
        = (List.replicate 1000 ⟨"h", "GET", "/", 80, true, 5⟩, false)) :=
  ⟨⟨by decide,
    (c6_log_enqueue [] ⟨"h", "GET", "/", 80, true, 5⟩).1 (by decide)⟩,
   ⟨by rw [List.length_replicate]; decide,
    (c6_log_enqueue (List.replicate 1000 ⟨"h", "GET", "/", 80, true, 5⟩)
      ⟨"h", "GET", "/", 80, true, 5⟩).2.1 (by rw [List.length_replicate]; decide)⟩⟩

end LocalProxy
